import Mathlib

/-!
Verification of the sequence/regex rewriter (`seq_rewriter.cpp`).

The developments below shallowly embed the individual algorithms of the
rewriter as executable Lean functions over inductive term models, and prove
(or refute at concrete inputs) the stated properties:

* nullability (`is_nullable`) and the symbolic derivative dispatch
  (`mk_re_derivative`);
* the ITE/BDD canonicalizer (`combine_ites` / `lift_ites`) and its
  memoization cache (`op_cache`);
* string extraction (`mk_seq_extract`) and string-to-integer conversion
  (`mk_str_stoi`);
* the word-equation reducer (`reduce_eq` and its sub-reductions);
* the regex-to-automaton compiler dispatch (`re2aut`).

Terms are hash-consed in the source, so structural equality of the embedded
terms corresponds to pointer identity of `expr*` nodes.
-/

namespace Z3Seq

/-! ## Decimal strings

`mk_str_stoi` parses decimal literals with an accumulate-by-10 loop and
`mk_str_itos` prints nonnegative numerals; `reduce_itos` compares a string
literal against the canonical printed form of its parsed value.  We set up
the corresponding functions on `List Char` here. -/

/-- A decimal digit character. -/
def isDigitCh (c : Char) : Bool := '0' ≤ c ∧ c ≤ '9'

/-- Numeric value of a digit character. -/
def digitVal (c : Char) : Nat := c.toNat - 48

/-- Digit character of a value `< 10`. -/
def chOfDigit (d : Nat) : Char := Char.ofNat (d + 48)

/-- Accumulate the value of a digit string left to right, as the
`mul(a, ten, a); add(a, digit, a)` loop of the numeral parser does. -/
def decAccum (s : List Char) : Nat := s.foldl (fun a c => 10 * a + digitVal c) 0

/-- Canonical decimal representation of a natural number (no leading zeros,
`"0"` for zero); the printed form produced by `rational::to_string` for
nonnegative integers. -/
def toDecStr (n : Nat) : List Char :=
  if n = 0 then ['0'] else ((Nat.digits 10 n).reverse.map chOfDigit)

theorem digitVal_chOfDigit (d : Nat) (h : d < 10) : digitVal (chOfDigit d) = d := by
  interval_cases d <;> decide

theorem isDigitCh_chOfDigit (d : Nat) (h : d < 10) : isDigitCh (chOfDigit d) = true := by
  interval_cases d <;> decide

/-- `decAccum` agrees with `Nat.ofDigits` on the reversed digit values. -/
theorem decAccum_eq_ofDigits (s : List Char) :
    decAccum s = Nat.ofDigits 10 ((s.map digitVal).reverse) := by
  induction s using List.reverseRecOn with
  | nil => simp [decAccum, Nat.ofDigits]
  | append_singleton xs c ih =>
      rw [decAccum] at ih ⊢
      have hrev : ((xs ++ [c]).map digitVal).reverse
          = digitVal c :: (xs.map digitVal).reverse := by simp
      rw [List.foldl_append, List.foldl_cons, List.foldl_nil, ih, hrev,
        Nat.ofDigits_cons]
      omega

/-- Parsing the canonical decimal string gives back the value. -/
theorem decAccum_toDecStr (n : Nat) : decAccum (toDecStr n) = n := by
  by_cases h0 : n = 0
  · subst h0; decide
  · have hlt : ∀ d ∈ Nat.digits 10 n, d < 10 := fun d hd =>
      Nat.digits_lt_base (by norm_num) hd
    rw [toDecStr, if_neg h0, decAccum_eq_ofDigits]
    have : ((Nat.digits 10 n).reverse.map chOfDigit).map digitVal
        = (Nat.digits 10 n).reverse.map (fun d => digitVal (chOfDigit d)) := by
      rw [List.map_map]; rfl
    rw [this]
    have h2 : (Nat.digits 10 n).reverse.map (fun d => digitVal (chOfDigit d))
        = (Nat.digits 10 n).reverse.map id := by
      apply List.map_congr_left
      intro d hd
      exact digitVal_chOfDigit d (hlt d (List.mem_reverse.mp hd))
    rw [h2, List.map_id, List.reverse_reverse, Nat.ofDigits_digits]

/-! ## Term model for the derivative engine

Character-sorted, sequence-sorted, boolean-sorted and regex-sorted terms,
as far as `seq_rewriter::is_nullable` and `seq_rewriter::mk_re_derivative`
inspect or construct them.  The AST is hash-consed in the source, so
structural equality of these inductives models pointer identity. -/

/-- Character-sorted terms.  `m_util.is_const_char` recognizes exactly the
`cc` constructor. -/
inductive CharE where
  | cc (c : Char)
  | cv (v : Nat)
deriving DecidableEq

/-- Sequence-sorted terms as they appear as operands of `str.to_re`,
`str.in_re` and equalities produced by the nullability computation:
a unit `(seq.unit c)`, a string literal, the empty-sequence constant
`OP_SEQ_EMPTY` (distinct from the literal `""`), or an opaque variable.
`str.to_re` of a concatenation is outside the modelled fragment (none of
the verified claims exercises `get_head_tail`'s concatenation case). -/
inductive SeqE where
  | unitE (c : CharE)
  | litE (s : List Char)
  | emptyE
  | svarE (v : Nat)
deriving DecidableEq

mutual
/-- Boolean-sorted terms produced by the nullability computation.  The
`ast_util` helpers `mk_and`/`mk_or`/`mk_not` are not among the provided
sources; modelled from the spec ("conjunction of the operands'
nullability", etc.) as plain term constructors. -/
inductive BoolE where
  | tt
  | ff
  | andB (a b : BoolE)
  | orB (a b : BoolE)
  | notB (a : BoolE)
  | iteB (c a b : BoolE)
  /-- `m().mk_eq` on two sequence-sorted terms. -/
  | eqB (a b : SeqE)
  /-- `m().mk_eq` on two character-sorted terms. -/
  | eqCh (a b : CharE)
  /-- `m_util.mk_le` on two character-sorted terms. -/
  | leCh (a b : CharE)
  /-- `array.mk_select` of an uninterpreted predicate on a character. -/
  | selB (p : Nat) (e : CharE)
  /-- `re().mk_in_re`: regex membership constraint. -/
  | inRe (s : SeqE) (r : NRe)

/-- Regex-sorted terms over the constructors `seq_rewriter::is_nullable`,
`seq_rewriter::mk_re_derivative` and `re2automaton::re2aut` recognize,
plus the "stuck" heads (`derivR`, `rvar`). -/
inductive NRe where
  | concatR (a b : NRe)
  | unionR (a b : NRe)
  | interR (a b : NRe)
  | diffR (a b : NRe)
  | starR (a : NRe)
  | plusR (a : NRe)
  | optR (a : NRe)
  | complR (a : NRe)
  | reverseR (a : NRe)
  /-- `re.loop` with only a lower bound: `is_loop(r, r1, lo)`. -/
  | loopLo (a : NRe) (lo : Nat)
  /-- `re.loop` with both bounds: `is_loop(r, r1, lo, hi)`. -/
  | loopLoHi (a : NRe) (lo hi : Nat)
  | emptyR
  | fullSeqR
  | fullCharR
  /-- `re.range`; the operands are sequence-sorted in the AST. -/
  | rangeR (l u : SeqE)
  | ofPredR (p : Nat)
  | toReR (s : SeqE)
  | iteR (c : BoolE) (a b : NRe)
  | derivR (e : CharE) (a : NRe)
  | rvar (v : Nat)
end

deriving instance DecidableEq for BoolE, NRe

/-- `m().is_false`. -/
def isFalseB : BoolE → Bool
  | .ff => true
  | _ => false

/-- `m().is_true`. -/
def isTrueB : BoolE → Bool
  | .tt => true
  | _ => false

/-- `str().is_empty`: the empty-sequence constant or the literal `""`. -/
def isEmptySeq : SeqE → Bool
  | .emptyE => true
  | .litE [] => true
  | _ => false

/-- `seq_rewriter::is_nullable` (the structural case analysis;
`is_nullable_rec` only adds memoization through `m_op_cache` on top of
this same function). -/
def isNullable : NRe → BoolE
  | .concatR r1 r2 => .andB (isNullable r1) (isNullable r2)
  | .interR r1 r2 => .andB (isNullable r1) (isNullable r2)
  | .unionR r1 r2 => .orB (isNullable r1) (isNullable r2)
  | .diffR r1 r2 => .andB (isNullable r1) (.notB (isNullable r2))
  | .starR _ => .tt
  | .optR _ => .tt
  | .fullSeqR => .tt
  | .loopLo r1 lo => if lo = 0 then .tt else isNullable r1
  | .loopLoHi r1 lo _ => if lo = 0 then .tt else isNullable r1
  | .fullCharR => .ff
  | .emptyR => .ff
  | .ofPredR _ => .ff
  | .rangeR _ _ => .ff
  | .plusR r1 => isNullable r1
  | .reverseR r1 => isNullable r1
  | .complR r1 => .notB (isNullable r1)
  | .toReR s => .eqB .emptyE s
  | .iteR c r1 r2 => .iteB c (isNullable r1) (isNullable r2)
  | .derivR e r1 => .inRe .emptyE (.derivR e r1)
  | .rvar v => .inRe .emptyE (.rvar v)

/-- The regex heads `is_nullable` recognizes explicitly (everything except
the final default branch). -/
def nullRecognized : NRe → Bool
  | .derivR _ _ => false
  | .rvar _ => false
  | _ => true

/-- `br_status` outcomes used by the rewriter. -/
inductive BrStatus where
  | done
  | rewrite1
  | rewrite2
  | rewrite3
  | rewriteFull
deriving DecidableEq

/-- `seq_rewriter::get_head_tail`: split a sequence term as a first
character plus remainder. -/
def getHeadTail : SeqE → Option (CharE × SeqE)
  | .unitE h => some (h, .emptyE)
  | .litE (c :: rest) => some (.cc c, .litE rest)
  | _ => none

/-- `seq_rewriter::re_and`. -/
def reAnd (cond : BoolE) (r : NRe) : NRe :=
  if isTrueB cond then r
  else if isFalseB cond then .emptyR
  else .iteR cond r .emptyR

/-- `seq_rewriter::re_predicate`. -/
def rePredicate (cond : BoolE) : NRe :=
  reAnd cond (.toReR .emptyE)

/-- `seq_rewriter::mk_re_derivative`; `none` models `BR_FAILED`. -/
def mkReDerivative (ele : CharE) : NRe → Option (BrStatus × NRe)
  | .concatR r1 r2 =>
      let isN := isNullable r1
      let dr1 : NRe := .derivR ele r1
      let dr2 : NRe := .derivR ele r2
      let res : NRe := .concatR dr1 r2
      if isFalseB isN then some (.rewrite2, res)
      else if isTrueB isN then some (.rewrite3, .unionR res dr2)
      else some (.rewrite3, .iteR isN (.unionR res dr2) res)
  | .starR r1 => some (.rewrite2, .concatR (.derivR ele r1) (.starR r1))
  | .plusR r1 => some (.rewrite1, .derivR ele (.starR r1))
  | .unionR r1 r2 => some (.rewrite2, .unionR (.derivR ele r1) (.derivR ele r2))
  | .interR r1 r2 => some (.rewrite2, .interR (.derivR ele r1) (.derivR ele r2))
  | .diffR r1 r2 => some (.rewrite2, .diffR (.derivR ele r1) (.derivR ele r2))
  | .iteR p r1 r2 => some (.rewrite2, .iteR p (.derivR ele r1) (.derivR ele r2))
  | .optR r1 => some (.rewrite1, .derivR ele r1)
  | .complR r1 => some (.rewrite2, .complR (.derivR ele r1))
  | .loopLo r1 lo =>
      -- `if (lo > 0) lo--;` is truncated subtraction on Nat
      some (.rewrite2, .concatR (.derivR ele r1) (.loopLo r1 (lo - 1)))
  | .loopLoHi r1 lo hi =>
      if hi = 0 then some (.done, .emptyR)
      else some (.rewrite2, .concatR (.derivR ele r1) (.loopLoHi r1 (lo - 1) (hi - 1)))
  | .fullSeqR => some (.done, .fullSeqR)
  | .emptyR => some (.done, .emptyR)
  | .toReR s =>
      match getHeadTail s with
      | some (hd, tl) => some (.rewrite2, reAnd (.eqCh ele hd) (.toReR tl))
      | none => if isEmptySeq s then some (.done, .emptyR) else none
  | .rangeR l u =>
      match l, u with
      | .litE s1, .litE s2 =>
          match s1, s2 with
          | [c1], [c2] =>
              some (.rewrite3,
                rePredicate (.andB (.leCh (.cc c1) ele) (.leCh ele (.cc c2))))
          | _, _ => some (.done, .emptyR)
      | .unitE e1, .unitE e2 =>
          some (.rewrite2, rePredicate (.andB (.leCh e1 ele) (.leCh ele e2)))
      | _, _ => none
  | .fullCharR => some (.done, .toReR .emptyE)
  | .ofPredR p => some (.rewrite2, rePredicate (.selB p ele))
  | .reverseR _ => none
  | .derivR _ _ => none
  | .rvar _ => none

/-- C3: for all regex terms `r1, r2` and every character element `ele`,
`mk_re_derivative` on `concat(r1, r2)` returns `d(ele,r1)·r2` when
`is_nullable(r1)` is the literal `false`; the union of `d(ele,r1)·r2` and
`d(ele,r2)` when it is the literal `true`; and
`ite(is_nullable(r1), union(d(ele,r1)·r2, d(ele,r2)), d(ele,r1)·r2)`
otherwise. -/
theorem mk_re_derivative_concat_cases (ele : CharE) (r1 r2 : NRe) :
    mkReDerivative ele (.concatR r1 r2) =
      (if isNullable r1 = .ff then
        some (.rewrite2, .concatR (.derivR ele r1) r2)
      else if isNullable r1 = .tt then
        some (.rewrite3,
          .unionR (.concatR (.derivR ele r1) r2) (.derivR ele r2))
      else
        some (.rewrite3,
          .iteR (isNullable r1)
            (.unionR (.concatR (.derivR ele r1) r2) (.derivR ele r2))
            (.concatR (.derivR ele r1) r2))) := by
  cases h : isNullable r1 <;> simp [mkReDerivative, isFalseB, isTrueB, h]

/-- C4: the case analysis of `is_nullable` over each recognized regex
constructor: conjunction for concat/intersection, disjunction for union,
`nullable(r1) ∧ ¬nullable(r2)` for diff, literal true for
star/optional/full-sequence/zero-lower-bound loops, literal false for
empty/full-char/range/predicate, delegation for plus, positive-lower-bound
loops and reverse, negation for complement, and equality with the empty
sequence for literal-to-regex. -/
theorem is_nullable_cases (r1 r2 : NRe) (s l u : SeqE) (p : Nat)
    (lo hi : Nat) (c : BoolE) :
    isNullable (.concatR r1 r2) = .andB (isNullable r1) (isNullable r2)
    ∧ isNullable (.interR r1 r2) = .andB (isNullable r1) (isNullable r2)
    ∧ isNullable (.unionR r1 r2) = .orB (isNullable r1) (isNullable r2)
    ∧ isNullable (.diffR r1 r2) = .andB (isNullable r1) (.notB (isNullable r2))
    ∧ isNullable (.starR r1) = .tt
    ∧ isNullable (.optR r1) = .tt
    ∧ isNullable .fullSeqR = .tt
    ∧ isNullable (.loopLo r1 0) = .tt
    ∧ isNullable (.loopLoHi r1 0 hi) = .tt
    ∧ isNullable .emptyR = .ff
    ∧ isNullable .fullCharR = .ff
    ∧ isNullable (.rangeR l u) = .ff
    ∧ isNullable (.ofPredR p) = .ff
    ∧ isNullable (.plusR r1) = isNullable r1
    ∧ isNullable (.loopLo r1 (lo + 1)) = isNullable r1
    ∧ isNullable (.loopLoHi r1 (lo + 1) hi) = isNullable r1
    ∧ isNullable (.reverseR r1) = isNullable r1
    ∧ isNullable (.complR r1) = .notB (isNullable r1)
    ∧ isNullable (.toReR s) = .eqB .emptyE s
    ∧ isNullable (.iteR c r1 r2) = .iteB c (isNullable r1) (isNullable r2) := by
  refine ⟨rfl, rfl, rfl, rfl, rfl, rfl, rfl, rfl, rfl, rfl, rfl, rfl, rfl,
    rfl, ?_, ?_, rfl, rfl, rfl, rfl⟩ <;> simp [isNullable]

/-- C10: `is_nullable` is total: on any regex term whose head is not a
recognized constructor it returns the membership constraint
`str.in_re "" r` rather than failing. -/
theorem is_nullable_default (r : NRe) (h : nullRecognized r = false) :
    isNullable r = .inRe .emptyE r := by
  cases r <;> first
    | rfl
    | exact absurd h (by simp [nullRecognized])

/-- Witness for C10 at the unrecognized head `rvar 0`. -/
theorem is_nullable_default_witness :
    nullRecognized (.rvar 0) = false
    ∧ isNullable (.rvar 0) = .inRe .emptyE (.rvar 0) :=
  ⟨rfl, is_nullable_default (.rvar 0) rfl⟩

/-! ## Regex-to-automaton compilation (`re2automaton`)

The automaton data structure `eautomaton` (`util/automaton.h`) and the
product/complement constructions of `symbolic_automata` are not among the
provided sources.  Modelled from the spec: a symbolic automaton has integer
states, one initial state, final states, and transitions labeled by
predicates (constant character, range, negation, arbitrary term) or
epsilon; `complement`/`intersection` use the symbolic-boolean-algebra
constructions, available only once `set_solver` has supplied the oracle
(`m_sa` non-null).  The combinators below realize the spec's §4.3
descriptions; claim C9 depends only on the dispatch in `re2aut`, which is
fully present in the source. -/

/-- Transition predicates (`sym_expr` variants). -/
inductive SymE where
  | charP (e : CharE)
  | rangeP (l u : CharE)
  | predTrue
  | notP (p : SymE)
deriving DecidableEq

/-- Modelled from the spec: symbolic finite automaton with epsilon moves
(`eautomaton`); a move with label `none` is an epsilon move. -/
structure EAut where
  init : Nat
  finals : List Nat
  moves : List (Nat × Option SymE × Nat)
deriving DecidableEq

/-- Modelled from the spec: epsilon automaton. -/
def epsilonA : EAut := ⟨0, [0], []⟩

/-- Modelled from the spec: empty-language automaton (`alloc(eautomaton, sm)`). -/
def emptyA : EAut := ⟨0, [], []⟩

/-- Modelled from the spec: two-state automaton with one labeled move. -/
def singleA (p : SymE) : EAut := ⟨0, [1], [(0, some p, 1)]⟩

/-- Modelled from the spec: one-state automaton looping on a predicate
(`eautomaton::mk_loop`). -/
def loopA (p : SymE) : EAut := ⟨0, [0], [(0, some p, 0)]⟩

/-- State count bound used to keep unions/concatenations disjoint. -/
def statesBound (a : EAut) : Nat :=
  a.moves.foldl (fun n m => max n (max m.1 m.2.2 + 1))
    (a.finals.foldl (fun n s => max n (s + 1)) (a.init + 1))

/-- Shift all states of an automaton by `k`. -/
def shiftA (k : Nat) (a : EAut) : EAut :=
  ⟨a.init + k, a.finals.map (· + k), a.moves.map (fun m => (m.1 + k, m.2.1, m.2.2 + k))⟩

/-- Modelled from the spec: concatenation (`eautomaton::mk_concat`):
epsilon moves from the first automaton's final states into the second. -/
def concatA (a b : EAut) : EAut :=
  let b2 := shiftA (statesBound a) b
  ⟨a.init, b2.finals,
    a.moves ++ b2.moves ++ a.finals.map (fun f => (f, none, b2.init))⟩

/-- Modelled from the spec: union (`eautomaton::mk_union`): fresh initial
state with epsilon moves to both operands. -/
def unionA (a b : EAut) : EAut :=
  let a2 := shiftA 1 a
  let b2 := shiftA (statesBound a + 1) b
  ⟨0, a2.finals ++ b2.finals,
    (0, none, a2.init) :: (0, none, b2.init) :: (a2.moves ++ b2.moves)⟩

/-- Modelled from the spec: `eautomaton::mk_opt` unions with the epsilon
automaton. -/
def optA (a : EAut) : EAut := unionA a epsilonA

/-- Modelled from the spec: `add_final_to_init_moves`. -/
def addFinalToInitMoves (a : EAut) : EAut :=
  ⟨a.init, a.finals, a.moves ++ a.finals.map (fun f => (f, none, a.init))⟩

/-- Modelled from the spec: `add_init_to_final_states`. -/
def addInitToFinalStates (a : EAut) : EAut :=
  ⟨a.init, a.init :: a.finals, a.moves⟩

/-- Modelled from the spec: linear chain automaton for a string literal. -/
def chainA (cs : List CharE) : EAut :=
  ⟨0, [cs.length],
    (List.range cs.length).zip cs |>.map (fun kc => (kc.1, some (.charP kc.2), kc.1 + 1))⟩

/-- The unrolled upper part of a bounded loop: the first `while (hi > lo)`
loop of `re2aut`, executed `n = hi - lo` times, builds
`union(eps, concat(a, previous))` starting from the epsilon automaton. -/
def loopUpper (a : EAut) : Nat → EAut
  | 0 => epsilonA
  | n + 1 => unionA epsilonA (concatA a (loopUpper a n))

/-- The second `while (lo > 0)` loop: `lo` further concatenations of `a`. -/
def iterConcatA (a : EAut) : Nat → EAut → EAut
  | 0, b => b
  | n + 1, b => iterConcatA a n (concatA a b)

/-- The symbolic-automata component (`m_sa`), allocated by
`re2automaton::set_solver` together with the satisfiability oracle;
its product/complement constructions are opaque here. -/
structure SAOps where
  complA : EAut → EAut
  productA : EAut → EAut → EAut

/-- `re2automaton::is_unit_char`. -/
def isUnitChar : SeqE → Option CharE
  | .litE [c] => some (.cc c)
  | .unitE c => some c
  | _ => none

/-- `re2automaton::seq2aut`.  String literals become linear chains of unit
transitions and the empty sequence the epsilon automaton; other sequence
terms are unsupported (`nullptr`). -/
def seq2aut : SeqE → Option EAut
  | .unitE c => some (singleA (.charP c))
  | .emptyE => some epsilonA
  | .litE [] => some epsilonA
  | .litE cs => some (chainA (cs.map CharE.cc))
  | .svarE _ => none

/-- `re2automaton::re2aut`.  The `sa` argument models `m_sa`: `none` before
`set_solver` has been called, `some ops` afterwards.  `none` as result
models the `nullptr` "not supported" outcome. -/
def re2aut (sa : Option SAOps) : NRe → Option EAut
  | .toReR s => seq2aut s
  | .concatR r1 r2 => do
      let a ← re2aut sa r1
      let b ← re2aut sa r2
      pure (concatA a b)
  | .unionR r1 r2 => do
      let a ← re2aut sa r1
      let b ← re2aut sa r2
      pure (unionA a b)
  | .starR r1 =>
      (re2aut sa r1).map (fun a => addInitToFinalStates (addFinalToInitMoves a))
  | .plusR r1 => (re2aut sa r1).map addFinalToInitMoves
  | .optR r1 => (re2aut sa r1).map optA
  | .rangeR e1 e2 =>
      match isUnitChar e1, isUnitChar e2 with
      | some c1, some c2 => some (singleA (.rangeP c1 c2))
      | _, _ => some emptyA
  | .complR r0 =>
      -- the source evaluates `re2aut(e0)` before testing `m_sa`; if either
      -- fails, control falls through all other branches to `return nullptr`
      match re2aut sa r0, sa with
      | some a, some ops => some (ops.complA a)
      | _, _ => none
  | .loopLoHi r1 lo hi =>
      (re2aut sa r1).map (fun a => iterConcatA a lo (loopUpper a (hi - lo)))
  | .loopLo r1 lo =>
      (re2aut sa r1).map (fun a =>
        iterConcatA a lo (addInitToFinalStates (addFinalToInitMoves a)))
  | .emptyR => some emptyA
  | .fullSeqR => some (loopA .predTrue)
  | .fullCharR => some (singleA .predTrue)
  | .interR r1 r2 =>
      match sa with
      | some ops => do
          let a ← re2aut sa r1
          let b ← re2aut sa r2
          pure (ops.productA a b)
      | none => none
  | .iteR _ _ _ => none
  | .diffR _ _ => none
  | .reverseR _ => none
  | .ofPredR _ => none
  | .derivR _ _ => none
  | .rvar _ => none

/-- C9: complement and intersection compile to `nullptr` ("not supported")
whenever no satisfiability oracle has been supplied via `set_solver`, and
with the oracle supplied they use the symbolic-boolean-algebra complement
and product constructions. -/
theorem re2aut_complement_intersection (r0 r1 r2 : NRe) :
    re2aut none (.complR r0) = none
    ∧ re2aut none (.interR r1 r2) = none
    ∧ (∀ ops : SAOps,
        re2aut (some ops) (.complR r0) = (re2aut (some ops) r0).map ops.complA)
    ∧ (∀ ops : SAOps,
        re2aut (some ops) (.interR r1 r2) =
          do
            let a ← re2aut (some ops) r1
            let b ← re2aut (some ops) r2
            pure (ops.productA a b)) := by
  refine ⟨?_, rfl, fun ops => ?_, fun ops => rfl⟩
  · show (match re2aut none r0, (none : Option SAOps) with
      | some a, some ops => some (ops.complA a)
      | _, _ => none) = none
    cases re2aut none r0 <;> rfl
  · show (match re2aut (some ops) r0, some ops with
      | some a, some ops => some (ops.complA a)
      | _, _ => none) = (re2aut (some ops) r0).map ops.complA
    cases re2aut (some ops) r0 <;> rfl

/-! ## ITE/BDD canonicalizer (`combine_ites` / `lift_ites`) and `op_cache`

`lift_ites` and `combine_ites` inspect an if-then-else condition only
through its hash-consing identifier (`cond->get_id()`) and pointer
equality, so conditions are represented directly by that identifier; for
hash-consed terms two conditions are the identical node iff their
identifiers coincide. -/

/-- Binary regex operators dispatched to `combine_ites`. -/
inductive BinK where
  | unionK
  | interK
  | concatK
  | diffK
deriving DecidableEq

/-- Unary regex operators rebuilt by `lift_ites`. -/
inductive UnK where
  | starK
  | plusK
  | optK
  | complK
  | revK
deriving DecidableEq

/-- The `decl_kind` argument of `combine_ites`: `OP_ITE` or a binary regex
operator. -/
inductive DK where
  | iteK
  | bk (k : BinK)
deriving DecidableEq

/-- Regex-sorted terms as inspected by `lift_ites`/`combine_ites`;
`atomL` covers the heads left unchanged (`is_full_seq`, `is_empty`,
`is_to_re`, `is_range`, `is_full_char`, `is_of_pred`). -/
inductive LRe where
  | iteL (c : Nat) (t e : LRe)
  | binL (k : BinK) (a b : LRe)
  | unL (k : UnK) (a : LRe)
  | derivL (ele : Nat) (a : LRe)
  | loopL (a : LRe) (lo : Nat)
  | loopHiL (a : LRe) (lo hi : Nat)
  | atomL (i : Nat)
deriving DecidableEq

/-- `m().is_ite` as a destructor. -/
def isIteL : LRe → Option (Nat × LRe × LRe)
  | .iteL c t e => some (c, t, e)
  | _ => none

/-- Key of an `op_cache` entry: `(decl_kind, arg, arg, arg)`; the spec
describes entries as "(operator-tag, operand-ids ×≤3) → result term".
The `_OP_RE_IS_NULLABLE` entries of the shared cache live under a
different operator tag and cannot collide with these keys. -/
abbrev CKey := DK × LRe × LRe × Option Nat

/-- The memoization table of `seq_rewriter::op_cache` (association list;
the hashtable stores one entry per key). -/
abbrev Cache := List (CKey × LRe)

/-- `op_cache::find`. -/
def cacheFind : Cache → CKey → Option LRe
  | [], _ => none
  | (k0, r) :: rest, k => if k0 = k then some r else cacheFind rest k

/-- `op_cache::insert`, including `op_cache::cleanup`: once the table
reaches the maximum size it is reset wholesale (no per-entry eviction);
the maximum (`m_max_cache_size`, declared in the class header) is kept as
a parameter. -/
def cacheInsert (maxSize : Nat) (c : Cache) (k : CKey) (r : LRe) : Cache :=
  let c1 := if maxSize ≤ c.length then [] else c
  (k, r) :: c1.filter (fun e => decide (e.1 ≠ k))

set_option maxHeartbeats 1000000

mutual

/-- The branch body of `seq_rewriter::combine_ites` after the cache probe
(everything between the miss and the final `m_op_cache.insert`).  `none`
models fuel exhaustion of the recursion, and the `(OP_ITE, null)` case the
null-condition dereference ruled out by the function's `SASSERT`. -/
def combineStep (ms f : Nat) (cache : Cache) (k : DK) (a b : LRe)
    (cond : Option Nat) : Option (LRe × Cache) :=
  match k, cond with
  | .iteK, some c =>
    match isIteL a with
    | some (ac, a1, a2) =>
      if c < ac then
        -- Push ITE inwards on first arg
        do
          let (r1, c1) ← combineItes ms f cache .iteK a1 b (some c)
          let (r2, c2) ← combineItes ms f c1 .iteK a2 b (some c)
          combineItes ms f c2 .iteK r1 r2 (some ac)
      else if ac = c then
        -- Collapse ITE on first arg
        combineItes ms f cache .iteK a1 b (some c)
      else
        match isIteL b with
        | some (bc, b1, b2) =>
          if c < bc then
            -- Push ITE inwards on second arg
            do
              let (r1, c1) ← combineItes ms f cache .iteK a b1 (some c)
              let (r2, c2) ← combineItes ms f c1 .iteK a b2 (some c)
              combineItes ms f c2 .iteK r1 r2 (some bc)
          else if bc = c then
            -- Collapse ITE on second arg
            combineItes ms f cache .iteK a b2 (some c)
          else
            -- Apply ITE -- no simplification required
            some (.iteL c a b, cache)
        | none => some (.iteL c a b, cache)
    | none =>
      match isIteL b with
      | some (bc, b1, b2) =>
        if c < bc then
          do
            let (r1, c1) ← combineItes ms f cache .iteK a b1 (some c)
            let (r2, c2) ← combineItes ms f c1 .iteK a b2 (some c)
            combineItes ms f c2 .iteK r1 r2 (some bc)
        else if bc = c then
          combineItes ms f cache .iteK a b2 (some c)
        else
          some (.iteL c a b, cache)
      | none => some (.iteL c a b, cache)
  | .iteK, none => none
  | .bk bk, _ =>
    match isIteL a with
    | some (ac, a1, a2) =>
      -- Push binary op inwards on first arg
      do
        let (r1, c1) ← combineItes ms f cache (.bk bk) a1 b none
        let (r2, c2) ← combineItes ms f c1 (.bk bk) a2 b none
        combineItes ms f c2 .iteK r1 r2 (some ac)
    | none =>
      match isIteL b with
      | some (bc, b1, b2) =>
        -- Push binary op inwards on second arg
        do
          let (r1, c1) ← combineItes ms f cache (.bk bk) a b1 none
          let (r2, c2) ← combineItes ms f c1 (.bk bk) a b2 none
          combineItes ms f c2 .iteK r1 r2 (some bc)
      | none =>
        -- Apply binary op (a and b are free of ITE)
        some (.binL bk a b, cache)
termination_by (f, 1)

/-- `seq_rewriter::combine_ites`: probe the cache, compute on a miss, and
save the result before returning. -/
def combineItes (ms fuel : Nat) (cache : Cache) (k : DK) (a b : LRe)
    (cond : Option Nat) : Option (LRe × Cache) :=
  match fuel with
  | 0 => none
  | f + 1 =>
    match cacheFind cache (k, a, b, cond) with
    | some r => some (r, cache)
    | none =>
      match combineStep ms f cache k a b cond with
      | some (r, c2) => some (r, cacheInsert ms c2 (k, a, b, cond) r)
      | none => none
termination_by (fuel, 0)

end

/-- `seq_rewriter::lift_ites`.  The recursion mirrors the source: every
branch first computes the lifted sub-results (threading the shared cache),
and then builds the result term exactly as the source does — note that all
branches except the two loop branches rebuild the node from the *original*
children `r1`/`r2` and discard the computed `result1`/`result2`. -/
def liftItes (ms fuel : Nat) (cache : Cache) : LRe → Bool → Bool →
    Option (LRe × Cache)
  | .binL k r1 r2, lou, loi =>
    if (k == .unionK && !lou) || (k == .interK && !loi) then
      -- Preserve unions and/or intersections
      do
        let (_res1, c1) ← liftItes ms fuel cache r1 lou loi
        let (_res2, c2) ← liftItes ms fuel c1 r2 lou loi
        pure (.binL k r1 r2, c2)
    else
      -- Use combine_ites on the subresults; stop preserving unions/inters
      do
        let (_res1, c1) ← liftItes ms fuel cache r1 true true
        let (_res2, c2) ← liftItes ms fuel c1 r2 true true
        combineItes ms fuel c2 (.bk k) r1 r2 none
  | .iteL c r1 r2, _, _ =>
    do
      let (_res1, c1) ← liftItes ms fuel cache r1 true true
      let (_res2, c2) ← liftItes ms fuel c1 r2 true true
      combineItes ms fuel c2 .iteK r1 r2 (some c)
  | .unL k r1, _, _ =>
    do
      let (_res1, c1) ← liftItes ms fuel cache r1 true true
      pure (.unL k r1, c1)
  | .derivL ele r1, _, _ =>
    do
      let (_res1, c1) ← liftItes ms fuel cache r1 true true
      pure (.derivL ele r1, c1)
  | .loopL r1 lo, _, _ =>
    do
      let (res1, c1) ← liftItes ms fuel cache r1 true true
      pure (.loopL res1 lo, c1)
  | .loopHiL r1 lo hi, _, _ =>
    do
      let (res1, c1) ← liftItes ms fuel cache r1 true true
      pure (.loopHiL res1 lo hi, c1)
  | .atomL i, _, _ => some (.atomL i, cache)

/-- No if-then-else node occurs anywhere in the term. -/
def iteFreeL : LRe → Bool
  | .iteL _ _ _ => false
  | .binL _ a b => iteFreeL a && iteFreeL b
  | .unL _ a => iteFreeL a
  | .derivL _ a => iteFreeL a
  | .loopL a _ => iteFreeL a
  | .loopHiL a _ _ => iteFreeL a
  | .atomL _ => true

/-- BDD form below an optional strict upper bound on condition
identifiers: if-then-elses are pushed outwards, nested conditions strictly
decrease outside-in (which also rules out duplicates), and no ITE occurs
beneath a non-ITE operator. -/
def bddBelow (bound : Option Nat) : LRe → Bool
  | .iteL c t e =>
    (match bound with
      | none => true
      | some bnd => decide (c < bnd)) && bddBelow (some c) t && bddBelow (some c) e
  | r => iteFreeL r

/-- Sorted, duplicate-free BDD form. -/
def isBddForm (r : LRe) : Bool := bddBelow none r

/-- C2 (refuting evaluation): on `star(ite(c, r1, r2))` the function
`lift_ites(·, true, true)` returns the input unchanged — the lifted child
`result1` is computed but the node is rebuilt from the original child —
so the ITE stays buried beneath the star and the result is not in BDD
form, contrary to the function's documented postcondition. -/
theorem lift_ites_star_ite_not_bdd :
    (liftItes 10000 10 [] (.unL .starK (.iteL 5 (.atomL 0) (.atomL 1)))
        true true).map Prod.fst
      = some (.unL .starK (.iteL 5 (.atomL 0) (.atomL 1)))
    ∧ isBddForm (.unL .starK (.iteL 5 (.atomL 0) (.atomL 1))) = false := by
  refine ⟨?_, by decide⟩
  simp [liftItes, combineItes, combineStep, cacheFind, cacheInsert, isIteL]

/-- Side condition under which `combine_ites` falls past its first-argument
branches: the first argument is not an if-then-else whose condition
identifier is `≥ c`. -/
def iteTopLt (a : LRe) (c : Nat) : Prop :=
  ∀ ac a1 a2, a = LRe.iteL ac a1 a2 → ac < c

/-- The argument is not an if-then-else at the top. -/
def notIteTop (a : LRe) : Prop :=
  ∀ ac a1 a2, a ≠ LRe.iteL ac a1 a2

/-- The call graph of a cache-free `combine_ites` computation: one
constructor per branch of the function, with the branch-selection side
conditions.  This is the reference against which cached runs are compared;
`combine_ites` computes a pure function of its four arguments, and this
relation is its graph. -/
inductive CombRel : DK → LRe → LRe → Option Nat → LRe → Prop where
  | pushIteA {c ac : Nat} {a1 a2 b r1 r2 r : LRe} :
      c < ac →
      CombRel .iteK a1 b (some c) r1 →
      CombRel .iteK a2 b (some c) r2 →
      CombRel .iteK r1 r2 (some ac) r →
      CombRel .iteK (.iteL ac a1 a2) b (some c) r
  | collapseIteA {c : Nat} {a1 a2 b r : LRe} :
      CombRel .iteK a1 b (some c) r →
      CombRel .iteK (.iteL c a1 a2) b (some c) r
  | pushIteB {c bc : Nat} {a b1 b2 r1 r2 r : LRe} :
      iteTopLt a c →
      c < bc →
      CombRel .iteK a b1 (some c) r1 →
      CombRel .iteK a b2 (some c) r2 →
      CombRel .iteK r1 r2 (some bc) r →
      CombRel .iteK a (.iteL bc b1 b2) (some c) r
  | collapseIteB {c : Nat} {a b1 b2 r : LRe} :
      iteTopLt a c →
      CombRel .iteK a b2 (some c) r →
      CombRel .iteK a (.iteL c b1 b2) (some c) r
  | applyIte {c : Nat} {a b : LRe} :
      iteTopLt a c →
      iteTopLt b c →
      CombRel .iteK a b (some c) (.iteL c a b)
  | pushBinA {k : BinK} {cond : Option Nat} {ac : Nat} {a1 a2 b r1 r2 r : LRe} :
      CombRel (.bk k) a1 b none r1 →
      CombRel (.bk k) a2 b none r2 →
      CombRel .iteK r1 r2 (some ac) r →
      CombRel (.bk k) (.iteL ac a1 a2) b cond r
  | pushBinB {k : BinK} {cond : Option Nat} {bc : Nat} {a b1 b2 r1 r2 r : LRe} :
      notIteTop a →
      CombRel (.bk k) a b1 none r1 →
      CombRel (.bk k) a b2 none r2 →
      CombRel .iteK r1 r2 (some bc) r →
      CombRel (.bk k) a (.iteL bc b1 b2) cond r
  | applyBin {k : BinK} {cond : Option Nat} {a b : LRe} :
      notIteTop a →
      notIteTop b →
      CombRel (.bk k) a b cond (.binL k a b)

theorem iteTopLt_of_isIteL_none {r : LRe} {c : Nat} (h : isIteL r = none) :
    iteTopLt r c := by
  intro ac a1 a2 he
  subst he
  simp [isIteL] at h

theorem iteTopLt_of_isIteL_lt {r : LRe} {c ac : Nat} {a1 a2 : LRe}
    (h : isIteL r = some (ac, a1, a2)) (hlt : ac < c) : iteTopLt r c := by
  intro ac2 b1 b2 he
  subst he
  simp [isIteL] at h
  omega

theorem notIteTop_of_isIteL_none {r : LRe} (h : isIteL r = none) :
    notIteTop r := by
  intro ac a1 a2 he
  subst he
  simp [isIteL] at h

/-- `combine_ites` denotes a function: its call graph is deterministic. -/
theorem combRel_det {k : DK} {a b : LRe} {cond : Option Nat} {r : LRe}
    (h1 : CombRel k a b cond r) :
    ∀ r2, CombRel k a b cond r2 → r = r2 := by
  induction h1 with
  | pushIteA hlt _ _ _ ih1 ih2 ih3 =>
      intro r2 h2
      cases h2 with
      | pushIteA hlt2 hx1 hx2 hx3 =>
          have e1 := ih1 _ hx1
          have e2 := ih2 _ hx2
          exact ih3 _ (e1 ▸ e2 ▸ hx3)
      | collapseIteA hx => omega
      | pushIteB hg hlt2 hx1 hx2 hx3 => exact absurd (hg _ _ _ rfl) (by omega)
      | collapseIteB hg hx => exact absurd (hg _ _ _ rfl) (by omega)
      | applyIte hga hgb => exact absurd (hga _ _ _ rfl) (by omega)
  | collapseIteA _ ih =>
      intro r2 h2
      cases h2 with
      | pushIteA hlt2 hx1 hx2 hx3 => omega
      | collapseIteA hx => exact ih _ hx
      | pushIteB hg hlt2 hx1 hx2 hx3 => exact absurd (hg _ _ _ rfl) (by omega)
      | collapseIteB hg hx => exact absurd (hg _ _ _ rfl) (by omega)
      | applyIte hga hgb => exact absurd (hga _ _ _ rfl) (by omega)
  | pushIteB hg hlt _ _ _ ih1 ih2 ih3 =>
      intro r2 h2
      cases h2 with
      | pushIteA hlt2 hx1 hx2 hx3 => exact absurd (hg _ _ _ rfl) (by omega)
      | collapseIteA hx => exact absurd (hg _ _ _ rfl) (by omega)
      | pushIteB hg2 hlt2 hx1 hx2 hx3 =>
          have e1 := ih1 _ hx1
          have e2 := ih2 _ hx2
          exact ih3 _ (e1 ▸ e2 ▸ hx3)
      | collapseIteB hg2 hx => omega
      | applyIte hga hgb => exact absurd (hgb _ _ _ rfl) (by omega)
  | collapseIteB hg _ ih =>
      intro r2 h2
      cases h2 with
      | pushIteA hlt2 hx1 hx2 hx3 => exact absurd (hg _ _ _ rfl) (by omega)
      | collapseIteA hx => exact absurd (hg _ _ _ rfl) (by omega)
      | pushIteB hg2 hlt2 hx1 hx2 hx3 => omega
      | collapseIteB hg2 hx => exact ih _ hx
      | applyIte hga hgb => exact absurd (hgb _ _ _ rfl) (by omega)
  | applyIte hga hgb =>
      intro r2 h2
      cases h2 with
      | pushIteA hlt2 hx1 hx2 hx3 => exact absurd (hga _ _ _ rfl) (by omega)
      | collapseIteA hx => exact absurd (hga _ _ _ rfl) (by omega)
      | pushIteB hg2 hlt2 hx1 hx2 hx3 => exact absurd (hgb _ _ _ rfl) (by omega)
      | collapseIteB hg2 hx => exact absurd (hgb _ _ _ rfl) (by omega)
      | applyIte hga2 hgb2 => rfl
  | pushBinA _ _ _ ih1 ih2 ih3 =>
      intro r2 h2
      cases h2 with
      | pushBinA hx1 hx2 hx3 =>
          have e1 := ih1 _ hx1
          have e2 := ih2 _ hx2
          exact ih3 _ (e1 ▸ e2 ▸ hx3)
      | pushBinB hg2 hx1 hx2 hx3 => exact absurd rfl (hg2 _ _ _)
      | applyBin hga hgb => exact absurd rfl (hga _ _ _)
  | pushBinB hg _ _ _ ih1 ih2 ih3 =>
      intro r2 h2
      cases h2 with
      | pushBinA hx1 hx2 hx3 => exact absurd rfl (hg _ _ _)
      | pushBinB hg2 hx1 hx2 hx3 =>
          have e1 := ih1 _ hx1
          have e2 := ih2 _ hx2
          exact ih3 _ (e1 ▸ e2 ▸ hx3)
      | applyBin hga hgb => exact absurd rfl (hgb _ _ _)
  | applyBin hga hgb =>
      intro r2 h2
      cases h2 with
      | pushBinA hx1 hx2 hx3 => exact absurd rfl (hga _ _ _)
      | pushBinB hg2 hx1 hx2 hx3 => exact absurd rfl (hgb _ _ _)
      | applyBin hga2 hgb2 => rfl

/-- Every entry of the cache agrees with the cache-free computation. -/
def Coherent (cache : Cache) : Prop :=
  ∀ k a b cond r, cacheFind cache (k, a, b, cond) = some r → CombRel k a b cond r

theorem coherent_nil : Coherent [] := by
  intro k a b cond r h
  simp [cacheFind] at h

theorem cacheFind_filterNe (c : Cache) (k1 k2 : CKey) (h : ¬ k2 = k1) :
    cacheFind (c.filter fun e => decide (e.1 ≠ k1)) k2 = cacheFind c k2 := by
  induction c with
  | nil => rfl
  | cons e rest ih =>
      obtain ⟨ek, er⟩ := e
      by_cases he : ek = k1
      · subst he
        rw [List.filter_cons_of_neg (by simp)]
        rw [ih, cacheFind, if_neg (by simpa using fun hh => h hh.symm)]
      · rw [List.filter_cons_of_pos (by simpa using he)]
        rw [cacheFind, cacheFind, ih]

theorem cacheFind_cacheInsert_self {ms : Nat} {c : Cache} {k : CKey} {r : LRe} :
    cacheFind (cacheInsert ms c k r) k = some r := by
  rw [cacheInsert, cacheFind, if_pos rfl]

theorem coherent_cacheInsert {ms : Nat} {cache : Cache} {k : DK} {a b : LRe}
    {cond : Option Nat} {r : LRe} (hc : Coherent cache)
    (hr : CombRel k a b cond r) :
    Coherent (cacheInsert ms cache (k, a, b, cond) r) := by
  intro k2 a2 b2 cond2 r2 hfind
  rw [cacheInsert, cacheFind] at hfind
  by_cases hkey : ((k, a, b, cond) : CKey) = (k2, a2, b2, cond2)
  · rw [if_pos hkey] at hfind
    injection hkey with h1 hrest
    injection hrest with h2 hrest
    injection hrest with h3 h4
    subst h1
    subst h2
    subst h3
    subst h4
    injection hfind with hv
    exact hv ▸ hr
  · rw [if_neg hkey] at hfind
    rw [cacheFind_filterNe _ _ _ (fun hh => hkey hh.symm)] at hfind
    by_cases hms : ms ≤ cache.length
    · simp [hms] at hfind
      simp [cacheFind] at hfind
    · simp [hms] at hfind
      exact hc _ _ _ _ _ hfind

theorem isIteL_eq_some {a : LRe} {c : Nat} {t e : LRe}
    (h : isIteL a = some (c, t, e)) : a = .iteL c t e := by
  cases a <;> simp [isIteL] at h
  obtain ⟨h1, h2, h3⟩ := h
  rw [h1, h2, h3]

/-- One unfolding of the simulation argument: if every recursive call at
fuel `f` simulates the cache-free computation, so does the branch body. -/
theorem sim_step (f : Nat)
    (IH : ∀ ms cache k a b cond r c2, Coherent cache →
      combineItes ms f cache k a b cond = some (r, c2) →
      CombRel k a b cond r ∧ Coherent c2) :
    ∀ ms cache k a b cond r c2, Coherent cache →
      combineStep ms f cache k a b cond = some (r, c2) →
      CombRel k a b cond r ∧ Coherent c2 := by
  intro ms cache k a b cond r c2 hc h
  rcases k with _ | bk
  · -- k = OP_ITE
    rcases cond with _ | c
    · simp [combineStep] at h
    · cases hia : isIteL a with
      | some pa =>
        obtain ⟨ac, a1, a2⟩ := pa
        have ha := isIteL_eq_some hia
        simp only [combineStep, hia] at h
        by_cases hlt : c < ac
        · rw [if_pos hlt] at h
          cases h1 : combineItes ms f cache .iteK a1 b (some c) with
          | none => rw [h1] at h; simp at h
          | some p1 =>
            obtain ⟨r1, c1⟩ := p1
            rw [h1] at h
            simp only [Option.bind_eq_bind, Option.some_bind] at h
            cases h2 : combineItes ms f c1 .iteK a2 b (some c) with
            | none => rw [h2] at h; simp at h
            | some p2 =>
              obtain ⟨r2, cc2⟩ := p2
              rw [h2] at h
              simp only [Option.some_bind] at h
              obtain ⟨rel1, hc1⟩ := IH _ _ _ _ _ _ _ _ hc h1
              obtain ⟨rel2, hc2⟩ := IH _ _ _ _ _ _ _ _ hc1 h2
              obtain ⟨rel3, hc3⟩ := IH _ _ _ _ _ _ _ _ hc2 h
              exact ⟨ha ▸ CombRel.pushIteA hlt rel1 rel2 rel3, hc3⟩
        · rw [if_neg hlt] at h
          by_cases heq : ac = c
          · rw [if_pos heq] at h
            obtain ⟨rel1, hc1⟩ := IH _ _ _ _ _ _ _ _ hc h
            subst heq
            exact ⟨ha ▸ CombRel.collapseIteA rel1, hc1⟩
          · rw [if_neg heq] at h
            have hga : iteTopLt a c := iteTopLt_of_isIteL_lt hia (by omega)
            cases hib : isIteL b with
            | some pb =>
              obtain ⟨bc, b1, b2⟩ := pb
              have hb := isIteL_eq_some hib
              rw [hib] at h
              simp only at h
              by_cases hltb : c < bc
              · rw [if_pos hltb] at h
                cases h1 : combineItes ms f cache .iteK a b1 (some c) with
                | none => rw [h1] at h; simp at h
                | some p1 =>
                  obtain ⟨r1, c1⟩ := p1
                  rw [h1] at h
                  simp only [Option.bind_eq_bind, Option.some_bind] at h
                  cases h2 : combineItes ms f c1 .iteK a b2 (some c) with
                  | none => rw [h2] at h; simp at h
                  | some p2 =>
                    obtain ⟨r2, cc2⟩ := p2
                    rw [h2] at h
                    simp only [Option.some_bind] at h
                    obtain ⟨rel1, hc1⟩ := IH _ _ _ _ _ _ _ _ hc h1
                    obtain ⟨rel2, hc2⟩ := IH _ _ _ _ _ _ _ _ hc1 h2
                    obtain ⟨rel3, hc3⟩ := IH _ _ _ _ _ _ _ _ hc2 h
                    exact ⟨hb ▸ CombRel.pushIteB hga hltb rel1 rel2 rel3, hc3⟩
              · rw [if_neg hltb] at h
                by_cases heqb : bc = c
                · rw [if_pos heqb] at h
                  obtain ⟨rel1, hc1⟩ := IH _ _ _ _ _ _ _ _ hc h
                  subst heqb
                  exact ⟨hb ▸ CombRel.collapseIteB hga rel1, hc1⟩
                · rw [if_neg heqb] at h
                  injection h with h1
                  injection h1 with hr hcc
                  subst hcc
                  have hgb : iteTopLt b c := iteTopLt_of_isIteL_lt hib (by omega)
                  exact ⟨hr ▸ CombRel.applyIte hga hgb, hc⟩
            | none =>
              rw [hib] at h
              simp only at h
              injection h with h1
              injection h1 with hr hcc
              subst hcc
              exact ⟨hr ▸ CombRel.applyIte hga (iteTopLt_of_isIteL_none hib), hc⟩
      | none =>
        have hga : ∀ cx, iteTopLt a cx := fun _ => iteTopLt_of_isIteL_none hia
        simp only [combineStep, hia] at h
        cases hib : isIteL b with
        | some pb =>
          obtain ⟨bc, b1, b2⟩ := pb
          have hb := isIteL_eq_some hib
          rw [hib] at h
          simp only at h
          by_cases hltb : c < bc
          · rw [if_pos hltb] at h
            cases h1 : combineItes ms f cache .iteK a b1 (some c) with
            | none => rw [h1] at h; simp at h
            | some p1 =>
              obtain ⟨r1, c1⟩ := p1
              rw [h1] at h
              simp only [Option.bind_eq_bind, Option.some_bind] at h
              cases h2 : combineItes ms f c1 .iteK a b2 (some c) with
              | none => rw [h2] at h; simp at h
              | some p2 =>
                obtain ⟨r2, cc2⟩ := p2
                rw [h2] at h
                simp only [Option.some_bind] at h
                obtain ⟨rel1, hc1⟩ := IH _ _ _ _ _ _ _ _ hc h1
                obtain ⟨rel2, hc2⟩ := IH _ _ _ _ _ _ _ _ hc1 h2
                obtain ⟨rel3, hc3⟩ := IH _ _ _ _ _ _ _ _ hc2 h
                exact ⟨hb ▸ CombRel.pushIteB (hga c) hltb rel1 rel2 rel3, hc3⟩
          · rw [if_neg hltb] at h
            by_cases heqb : bc = c
            · rw [if_pos heqb] at h
              obtain ⟨rel1, hc1⟩ := IH _ _ _ _ _ _ _ _ hc h
              subst heqb
              exact ⟨hb ▸ CombRel.collapseIteB (hga bc) rel1, hc1⟩
            · rw [if_neg heqb] at h
              injection h with h1
              injection h1 with hr hcc
              subst hcc
              have hgb : iteTopLt b c := iteTopLt_of_isIteL_lt hib (by omega)
              exact ⟨hr ▸ CombRel.applyIte (hga c) hgb, hc⟩
        | none =>
          rw [hib] at h
          simp only at h
          injection h with h1
          injection h1 with hr hcc
          subst hcc
          exact ⟨hr ▸ CombRel.applyIte (hga c) (iteTopLt_of_isIteL_none hib), hc⟩
  · -- k is a binary regex operator
    cases hia : isIteL a with
    | some pa =>
      obtain ⟨ac, a1, a2⟩ := pa
      have ha := isIteL_eq_some hia
      simp only [combineStep, hia] at h
      cases h1 : combineItes ms f cache (.bk bk) a1 b none with
      | none => rw [h1] at h; simp at h
      | some p1 =>
        obtain ⟨r1, c1⟩ := p1
        rw [h1] at h
        simp only [Option.bind_eq_bind, Option.some_bind] at h
        cases h2 : combineItes ms f c1 (.bk bk) a2 b none with
        | none => rw [h2] at h; simp at h
        | some p2 =>
          obtain ⟨r2, cc2⟩ := p2
          rw [h2] at h
          simp only [Option.some_bind] at h
          obtain ⟨rel1, hc1⟩ := IH _ _ _ _ _ _ _ _ hc h1
          obtain ⟨rel2, hc2⟩ := IH _ _ _ _ _ _ _ _ hc1 h2
          obtain ⟨rel3, hc3⟩ := IH _ _ _ _ _ _ _ _ hc2 h
          exact ⟨ha ▸ CombRel.pushBinA rel1 rel2 rel3, hc3⟩
    | none =>
      simp only [combineStep, hia] at h
      cases hib : isIteL b with
      | some pb =>
        obtain ⟨bc, b1, b2⟩ := pb
        have hb := isIteL_eq_some hib
        rw [hib] at h
        simp only at h
        cases h1 : combineItes ms f cache (.bk bk) a b1 none with
        | none => rw [h1] at h; simp at h
        | some p1 =>
          obtain ⟨r1, c1⟩ := p1
          rw [h1] at h
          simp only [Option.bind_eq_bind, Option.some_bind] at h
          cases h2 : combineItes ms f c1 (.bk bk) a b2 none with
          | none => rw [h2] at h; simp at h
          | some p2 =>
            obtain ⟨r2, cc2⟩ := p2
            rw [h2] at h
            simp only [Option.some_bind] at h
            obtain ⟨rel1, hc1⟩ := IH _ _ _ _ _ _ _ _ hc h1
            obtain ⟨rel2, hc2⟩ := IH _ _ _ _ _ _ _ _ hc1 h2
            obtain ⟨rel3, hc3⟩ := IH _ _ _ _ _ _ _ _ hc2 h
            exact ⟨hb ▸ CombRel.pushBinB (notIteTop_of_isIteL_none hia)
              rel1 rel2 rel3, hc3⟩
      | none =>
        rw [hib] at h
        simp only at h
        injection h with h1
        injection h1 with hr hcc
        subst hcc
        exact ⟨hr ▸ CombRel.applyBin (notIteTop_of_isIteL_none hia)
          (notIteTop_of_isIteL_none hib), hc⟩

/-- A successful `combine_ites` call from a coherent cache computes the
cache-free result and leaves the cache coherent. -/
theorem sim_run : ∀ f ms cache k a b cond r c2, Coherent cache →
    combineItes ms f cache k a b cond = some (r, c2) →
    CombRel k a b cond r ∧ Coherent c2 := by
  intro f
  induction f with
  | zero =>
      intro ms cache k a b cond r c2 hc h
      simp [combineItes] at h
  | succ f ih =>
      intro ms cache k a b cond r c2 hc h
      rw [combineItes] at h
      cases hf : cacheFind cache (k, a, b, cond) with
      | some r0 =>
          rw [hf] at h
          injection h with h1
          injection h1 with hr hcc
          subst hcc
          exact ⟨hr ▸ hc _ _ _ _ _ hf, hc⟩
      | none =>
          rw [hf] at h
          cases hs : combineStep ms f cache k a b cond with
          | none => rw [hs] at h; simp at h
          | some p =>
              obtain ⟨r0, c0⟩ := p
              rw [hs] at h
              injection h with h1
              injection h1 with hr hcc
              obtain ⟨rel, hc0⟩ := sim_step f ih ms cache k a b cond r0 c0 hc hs
              subst hr
              subst hcc
              exact ⟨rel, coherent_cacheInsert hc0 rel⟩

/-- A successful `combine_ites` call leaves its own result in the cache
under its own key. -/
theorem combineItes_find_self {ms f : Nat} {cache : Cache} {k : DK}
    {a b : LRe} {cond : Option Nat} {r : LRe} {c2 : Cache}
    (h : combineItes ms f cache k a b cond = some (r, c2)) :
    cacheFind c2 (k, a, b, cond) = some r := by
  match f with
  | 0 => simp [combineItes] at h
  | f + 1 =>
    rw [combineItes] at h
    cases hf : cacheFind cache (k, a, b, cond) with
    | some r0 =>
        rw [hf] at h
        injection h with h1
        injection h1 with hr hcc
        subst hcc
        rw [hf, hr]
    | none =>
        rw [hf] at h
        cases hs : combineStep ms f cache k a b cond with
        | none => rw [hs] at h; simp at h
        | some p =>
            obtain ⟨r0, c0⟩ := p
            rw [hs] at h
            injection h with h1
            injection h1 with hr hcc
            subst hcc
            rw [← hr]
            exact cacheFind_cacheInsert_self

/-- C7: with a coherent cache (the invariant maintained by
`coherent_cacheInsert` and trivially true of the empty cache), a
successful `combine_ites` call leaves its result in the cache, so an
immediately repeated call with identical arguments is answered from the
memoization cache with the identical (hash-consed) term and the unchanged
cache; and the returned term coincides with what a fresh computation
starting from the empty cache produces for the same arguments. -/
theorem combine_ites_cache_correct
    (ms f g : Nat) (cache : Cache) (k : DK) (a b : LRe) (cond : Option Nat)
    (t tFresh : LRe) (c1 cFresh : Cache)
    (hcoh : Coherent cache)
    (h1 : combineItes ms f cache k a b cond = some (t, c1))
    (h2 : combineItes ms g [] k a b cond = some (tFresh, cFresh)) :
    cacheFind c1 (k, a, b, cond) = some t
    ∧ combineItes ms f c1 k a b cond = some (t, c1)
    ∧ t = tFresh := by
  have hfind := combineItes_find_self h1
  refine ⟨hfind, ?_, ?_⟩
  · match f with
    | 0 => simp [combineItes] at h1
    | f + 1 => rw [combineItes, hfind]
  · have ha := (sim_run f ms cache k a b cond t c1 hcoh h1).1
    have hb := (sim_run g ms [] k a b cond tFresh cFresh coherent_nil h2).1
    exact combRel_det ha _ hb

/-- Witness for C7: combining two ITE-free regex atoms under a fresh
condition, first from the empty cache and again from the resulting cache. -/
theorem combine_ites_cache_correct_witness :
    cacheFind [((DK.iteK, LRe.atomL 0, LRe.atomL 1, some 3),
          LRe.iteL 3 (.atomL 0) (.atomL 1))]
        (DK.iteK, LRe.atomL 0, LRe.atomL 1, some 3)
      = some (.iteL 3 (.atomL 0) (.atomL 1))
    ∧ combineItes 4 5
        [((DK.iteK, LRe.atomL 0, LRe.atomL 1, some 3),
          LRe.iteL 3 (.atomL 0) (.atomL 1))]
        .iteK (.atomL 0) (.atomL 1) (some 3)
      = some (.iteL 3 (.atomL 0) (.atomL 1),
          [((DK.iteK, LRe.atomL 0, LRe.atomL 1, some 3),
            LRe.iteL 3 (.atomL 0) (.atomL 1))])
    ∧ (LRe.iteL 3 (.atomL 0) (.atomL 1)) = .iteL 3 (.atomL 0) (.atomL 1) :=
  combine_ites_cache_correct 4 5 5 [] .iteK (.atomL 0) (.atomL 1) (some 3)
    (.iteL 3 (.atomL 0) (.atomL 1)) (.iteL 3 (.atomL 0) (.atomL 1))
    [((DK.iteK, LRe.atomL 0, LRe.atomL 1, some 3),
      LRe.iteL 3 (.atomL 0) (.atomL 1))]
    [((DK.iteK, LRe.atomL 0, LRe.atomL 1, some 3),
      LRe.iteL 3 (.atomL 0) (.atomL 1))]
    coherent_nil
    (by simp [combineItes, combineStep, cacheFind, cacheInsert, isIteL])
    (by simp [combineItes, combineStep, cacheFind, cacheInsert, isIteL])

/-! ## String-to-integer conversion (`mk_str_stoi`)

Sequence-, integer- and boolean-sorted terms as far as `mk_str_stoi`
inspects or constructs them, together with their evaluation under an
assignment to the symbolic variables. -/

mutual
/-- Sequence-sorted terms for the `str.to_int` rewrite. -/
inductive SeqX where
  | unitX (c : CharE)
  | litX (s : List Char)
  | catX (a b : SeqX)
  | emptyX
  | svarX (v : Nat)
  | itosX (n : IntX)
  | iteSX (c : BoolX) (t e : SeqX)

/-- Integer-sorted terms for the `str.to_int` rewrite. -/
inductive IntX where
  | numI (i : Int)
  | stoiI (s : SeqX)
  | addI (a b : IntX)
  | mulI (a b : IntX)
  | iteI (c : BoolX) (t e : IntX)
  | ivarX (v : Nat)

/-- Boolean-sorted terms for the `str.to_int` rewrite. -/
inductive BoolX where
  | geB (a b : IntX)
  | isEmptyB (s : SeqX)
end

/-- An assignment of concrete values to the symbolic character, sequence
and integer variables. -/
structure Assign where
  chv : Nat → Char
  sqv : Nat → List Char
  inv : Nat → Int

/-- Value of a character-sorted term. -/
def evalCharE (σ : Assign) : CharE → Char
  | .cc c => c
  | .cv v => σ.chv v

/-- The `str.to_int` semantics, read off the concrete-literal branch of
`mk_str_stoi` itself: `-1` for the empty string or any non-digit
character, otherwise the accumulated decimal value. -/
def stoiVal (s : List Char) : Int :=
  if s.isEmpty then -1
  else if s.all isDigitCh then (decAccum s : Int)
  else -1

/-- The `int.to.str` semantics, read off `mk_str_itos`: `""` for negative
numerals, otherwise the canonical decimal string. -/
def itosVal (i : Int) : List Char :=
  if i < 0 then [] else toDecStr i.toNat

mutual
/-- Value of a sequence-sorted term. -/
def evalSeqX (σ : Assign) : SeqX → List Char
  | .unitX c => [evalCharE σ c]
  | .litX s => s
  | .catX a b => evalSeqX σ a ++ evalSeqX σ b
  | .emptyX => []
  | .svarX v => σ.sqv v
  | .itosX n => itosVal (evalIntX σ n)
  | .iteSX c t e => if evalBoolX σ c then evalSeqX σ t else evalSeqX σ e

/-- Value of an integer-sorted term. -/
def evalIntX (σ : Assign) : IntX → Int
  | .numI i => i
  | .stoiI s => stoiVal (evalSeqX σ s)
  | .addI a b => evalIntX σ a + evalIntX σ b
  | .mulI a b => evalIntX σ a * evalIntX σ b
  | .iteI c t e => if evalBoolX σ c then evalIntX σ t else evalIntX σ e
  | .ivarX v => σ.inv v

/-- Value of a boolean-sorted term. -/
def evalBoolX (σ : Assign) : BoolX → Bool
  | .geB a b => decide (evalIntX σ a ≥ evalIntX σ b)
  | .isEmptyB s => (evalSeqX σ s).isEmpty
end

/-- Modelled from the spec: `seq_util::str::get_concat_units` (declared in
the sequence plugin, which is not among the provided sources) flattens a
concatenation into its operand list, explodes string literals into unit
characters, and drops empty operands. -/
def getConcatUnits : SeqX → List SeqX
  | .catX a b => getConcatUnits a ++ getConcatUnits b
  | .litX s => s.map (fun ch => SeqX.unitX (.cc ch))
  | .emptyX => []
  | s => [s]

/-- Modelled from the spec: `seq_util::str::mk_concat(n, es, sort)` builds
the right-associated concatenation of `n` operands (the empty sequence for
`n = 0`, the operand itself for `n = 1`). -/
def mkConcatList : List SeqX → SeqX
  | [] => .emptyX
  | [x] => x
  | x :: rest => .catX x (mkConcatList rest)

/-- `str().is_unit`. -/
def isUnitX : SeqX → Bool
  | .unitX _ => true
  | _ => false

/-- The term built by the concatenation branch of `mk_str_stoi`
(source comment: "if head = \"\" then tail else if tail < 0 then tail else
if stoi(head) >= 0 and then stoi(head)*10+tail else -1"). -/
def stoiConcatTerm (head tailArg : SeqX) : IntX :=
  let tail : IntX := .stoiI tailArg
  let stoiHead : IntX := .stoiI head
  let acc : IntX :=
    .iteI (.geB stoiHead (.numI 0))
      (.addI (.mulI (.numI 10) stoiHead) tail)
      (.numI (-1))
  .iteI (.isEmptyB head) tail (.iteI (.geB tail (.numI 0)) acc tail)

/-- `seq_rewriter::mk_str_stoi`; `none` models `BR_FAILED`. -/
def mkStrStoi : SeqX → Option (BrStatus × IntX)
  | .litX s =>
      if s.isEmpty then some (.done, .numI (-1))
      else if s.all isDigitCh then some (.done, .numI (decAccum s : Int))
      else some (.done, .numI (-1))
  | .itosX b => some (.done, .iteI (.geB b (.numI 0)) b (.numI (-1)))
  | .iteSX c t e =>
      some (.rewriteFull, .iteI c (.stoiI t) (.stoiI e))
  | .unitX (.cc ch) =>
      if isDigitCh ch then some (.done, .numI ((digitVal ch : Nat) : Int))
      else some (.done, .numI (-1))
  | a =>
      let as := getConcatUnits a
      match as.getLast? with
      | none => some (.done, .numI (-1))
      | some lastE =>
        if isUnitX lastE then
          some (.rewriteFull, stoiConcatTerm (mkConcatList as.dropLast) lastE)
        else none

theorem evalSeqX_mkConcatList (σ : Assign) (l : List SeqX) :
    evalSeqX σ (mkConcatList l) = (l.map (evalSeqX σ)).flatten := by
  induction l with
  | nil => simp [mkConcatList, evalSeqX]
  | cons x rest ih =>
      cases rest with
      | nil => simp [mkConcatList, evalSeqX]
      | cons y t => simp [mkConcatList, evalSeqX, ih]

theorem flatten_map_single (s : List Char) :
    (s.map (fun c : Char => [c])).flatten = s := by
  induction s with
  | nil => rfl
  | cons c t ih => simpa using ih

theorem evalSeqX_getConcatUnits (σ : Assign) :
    ∀ a : SeqX, ((getConcatUnits a).map (evalSeqX σ)).flatten = evalSeqX σ a
  | .catX x y => by
      simp [getConcatUnits, evalSeqX,
        evalSeqX_getConcatUnits σ x, evalSeqX_getConcatUnits σ y]
  | .litX s => by
      simp only [getConcatUnits, List.map_map]
      have : (evalSeqX σ ∘ fun ch => SeqX.unitX (.cc ch))
          = fun c : Char => [c] := by
        funext c
        simp [evalSeqX, evalCharE]
      rw [this, flatten_map_single]
      rfl
  | .emptyX => by simp [getConcatUnits, evalSeqX]
  | .unitX c => by simp [getConcatUnits, evalSeqX]
  | .svarX v => by simp [getConcatUnits, evalSeqX]
  | .itosX n => by simp [getConcatUnits, evalSeqX]
  | .iteSX c t e => by simp [getConcatUnits, evalSeqX]

/-- The digit-accumulation identity satisfied by `str.to_int` on a string
extended by one character, with the branch that first tests the trailing
digit (`tail < 0`). -/
theorem stoiVal_append_unit (h : List Char) (c : Char) :
    stoiVal (h ++ [c]) =
      if h.isEmpty then stoiVal [c]
      else if stoiVal [c] ≥ 0 then
        (if stoiVal h ≥ 0 then 10 * stoiVal h + stoiVal [c] else -1)
      else stoiVal [c] := by
  have hemp : ∀ s : List Char, s.isEmpty = false → s.all isDigitCh = true →
      stoiVal s = ((decAccum s : Nat) : Int) := by
    intro s h1 h2
    simp [stoiVal, h1, h2]
  have hbad : ∀ s : List Char, s.isEmpty = false → s.all isDigitCh = false →
      stoiVal s = -1 := by
    intro s h1 h2
    simp [stoiVal, h1, h2]
  by_cases hh : h.isEmpty
  · rw [if_pos hh, List.isEmpty_iff.mp hh, List.nil_append]
  · have hh2 : h.isEmpty = false := Bool.eq_false_iff.mpr hh
    rw [if_neg hh]
    have hne2 : (h ++ [c]).isEmpty = false := by simp
    have hc1 : stoiVal [c]
        = if isDigitCh c then ((digitVal c : Nat) : Int) else -1 := by
      by_cases hdc : isDigitCh c <;> simp [stoiVal, hdc, decAccum]
    by_cases hdc : isDigitCh c
    · have hcv : stoiVal [c] = ((digitVal c : Nat) : Int) := by
        rw [hc1, if_pos hdc]
      have hcge : stoiVal [c] ≥ 0 := by
        rw [hcv]
        positivity
      rw [if_pos hcge]
      by_cases hdh : h.all isDigitCh
      · have hhv := hemp h hh2 hdh
        have hge : stoiVal h ≥ 0 := by
          rw [hhv]
          positivity
        rw [if_pos hge, hhv, hcv]
        have hall2 : (h ++ [c]).all isDigitCh = true := by
          simp [List.all_append, hdh, hdc]
        rw [hemp _ hne2 hall2]
        have hacc : decAccum (h ++ [c]) = 10 * decAccum h + digitVal c := by
          simp [decAccum, List.foldl_append]
        rw [hacc]
        push_cast
        ring
      · have hdh2 : h.all isDigitCh = false := Bool.eq_false_iff.mpr hdh
        have hge : ¬ stoiVal h ≥ 0 := by
          rw [hbad h hh2 hdh2]
          norm_num
        rw [if_neg hge]
        have hall2 : (h ++ [c]).all isDigitCh = false := by
          simp [List.all_append, hdh2]
        rw [hbad _ hne2 hall2]
    · have hdc2 : isDigitCh c = false := Bool.eq_false_iff.mpr hdc
      have hcv : stoiVal [c] = -1 := by
        rw [hc1, if_neg hdc]
      have hcge : ¬ stoiVal [c] ≥ 0 := by
        rw [hcv]
        norm_num
      rw [if_neg hcge, hcv]
      have hall2 : (h ++ [c]).all isDigitCh = false := by
        simp [List.all_append, hdc2]
      rw [hbad _ hne2 hall2]

/-- C8 (amended): on a concatenation ending in a unit, `mk_str_stoi`
produces exactly the term
`ite(head = "", tail, ite(tail ≥ 0, ite(stoi(head) ≥ 0,
10·stoi(head)+tail, -1), tail))` with `tail = stoi(unit)`, and this term
evaluates, under every assignment, to `stoi` of the argument's value. -/
theorem mk_str_stoi_concat_unit (x : SeqX) (u : CharE) :
    mkStrStoi (.catX x (.unitX u)) =
      some (.rewriteFull,
        stoiConcatTerm (mkConcatList (getConcatUnits x)) (.unitX u))
    ∧ ∀ σ : Assign,
        evalIntX σ (stoiConcatTerm (mkConcatList (getConcatUnits x)) (.unitX u))
          = stoiVal (evalSeqX σ (.catX x (.unitX u))) := by
  constructor
  · have hgcu : getConcatUnits (.catX x (.unitX u))
        = getConcatUnits x ++ [.unitX u] := rfl
    have hcat : ∀ s : SeqX, mkStrStoi (.catX x s) =
        (let as := getConcatUnits (SeqX.catX x s)
         match as.getLast? with
         | none => some (.done, .numI (-1))
         | some lastE =>
           if isUnitX lastE then
             some (.rewriteFull,
               stoiConcatTerm (mkConcatList as.dropLast) lastE)
           else none) := fun s => rfl
    rw [hcat]
    simp only [hgcu, List.getLast?_concat, List.dropLast_concat]
    rfl
  · intro σ
    have hhead : evalSeqX σ (mkConcatList (getConcatUnits x)) = evalSeqX σ x := by
      rw [evalSeqX_mkConcatList, evalSeqX_getConcatUnits]
    show evalIntX σ (.iteI (.isEmptyB (mkConcatList (getConcatUnits x)))
        (.stoiI (.unitX u))
        (.iteI (.geB (.stoiI (.unitX u)) (.numI 0))
          (.iteI (.geB (.stoiI (mkConcatList (getConcatUnits x))) (.numI 0))
            (.addI (.mulI (.numI 10) (.stoiI (mkConcatList (getConcatUnits x))))
              (.stoiI (.unitX u)))
            (.numI (-1)))
          (.stoiI (.unitX u)))) = _
    simp only [evalIntX, evalBoolX, evalSeqX, hhead]
    rw [stoiVal_append_unit (evalSeqX σ x) (evalCharE σ u)]
    by_cases he : (evalSeqX σ x).isEmpty <;>
      by_cases ht : stoiVal [evalCharE σ u] ≥ 0 <;>
        by_cases hs : stoiVal (evalSeqX σ x) ≥ 0 <;>
          simp [he, ht, hs]

/-- The digit-accumulation identity as literally stated by the spec:
`ite(stoi(head) ≥ 0, 10·stoi(head)+digit, ite(digit ≥ 0, digit, -1))`,
gated on `head` being empty. -/
def claimStoiTerm (head tailArg : SeqX) : IntX :=
  let tail : IntX := .stoiI tailArg
  let stoiHead : IntX := .stoiI head
  .iteI (.isEmptyB head) tail
    (.iteI (.geB stoiHead (.numI 0))
      (.addI (.mulI (.numI 10) stoiHead) tail)
      (.iteI (.geB tail (.numI 0)) tail (.numI (-1))))

/-- C8 (counterexample): for `head = "5"` and the non-digit unit `'x'`,
the spec's formula evaluates to `49`, while the term `mk_str_stoi` builds
— and `str.to_int` itself — give `-1`; so the claim's identity does not
describe the code. -/
theorem claim_stoi_term_differs :
    evalIntX ⟨fun _ => 'a', fun _ => [], fun _ => 0⟩
        (claimStoiTerm (.litX ['5']) (.unitX (.cc 'x'))) = 49
    ∧ evalIntX ⟨fun _ => 'a', fun _ => [], fun _ => 0⟩
        (stoiConcatTerm (.litX ['5']) (.unitX (.cc 'x'))) = -1
    ∧ stoiVal (evalSeqX ⟨fun _ => 'a', fun _ => [], fun _ => 0⟩
        (.catX (.litX ['5']) (.unitX (.cc 'x')))) = -1 := by
  refine ⟨?_, ?_, ?_⟩ <;> decide

/-! ## Sequence extraction (`mk_seq_extract`) on concrete arguments

The claim quantifies over concrete string literals `s` and integer
numerals `pos`, `len`.  On this input domain `is_string(a)`,
`is_numeral(b)` and `is_numeral(c)` hold, while `is_length(b)`,
`is_add(b)` (so `lengthPos`), `is_length(c)` and `is_extract(a)` are
false, so the corresponding branches of the source are statically dead and
elided here; every remaining branch is translated in source order.
`zstring::extract` (not among the provided sources) is modelled from the
spec: it clips the requested length at the tail, which also absorbs the
32-bit wrap-around of `_pos + _len` in the concrete branch. -/

/-- Integer-sorted argument terms of the residual `str.substr` built at
the end of `mk_seq_extract`: a numeral, or the unsimplified difference
`b - offset`. -/
inductive XInt where
  | numT (i : Int)
  | subT (b : Int) (off : Nat)
deriving DecidableEq

/-- Sequence-sorted result terms of `mk_seq_extract` on this domain. -/
inductive XTerm where
  | emptyT
  | litT (s : List Char)
  | unitT (c : Char)
  | concatT (a b : XTerm)
  /-- `m().mk_ite(m_autil.mk_ge(c, i), thenT, elseT)`. -/
  | iteGeT (lenArg : Int) (i : Nat) (thenT elseT : XTerm)
  | substrT (a : XTerm) (posE lenE : XInt)
deriving DecidableEq

/-- `str().mk_concat(i, as.c_ptr())` over unit characters. -/
def unitsConcatX : List Char → XTerm
  | [] => .emptyT
  | [c] => .unitT c
  | c :: rest => .concatT (.unitT c) (unitsConcatX rest)

/-- The ite chain of the `_pos == 0 && as.forall(is_unit)` branch:
`result = ""; for i in 1..n: result = ite(c ≥ i, first i units, result)`. -/
def iteChainX (len : Int) (cs : List Char) : Nat → XTerm
  | 0 => .emptyT
  | i + 1 => .iteGeT len (i + 1) (unitsConcatX (cs.take (i + 1)))
      (iteChainX len cs i)

/-- `seq_rewriter::mk_seq_extract` restricted to a concrete string literal
`s` and integer numerals `pos` and `len`; `none` models `BR_FAILED`. -/
def mkSeqExtractLit (s : List Char) (pos len : Int) : Option (BrStatus × XTerm) :=
  -- sign_is_determined(c, sg) && sg == sign_neg
  if len < 0 then some (.done, .emptyT)
  -- case 1: pos<0 or len<=0 -> ""
  else if pos < 0 ∨ len ≤ 0 then some (.done, .emptyT)
  -- case 1.1: pos >= length(base) -> ""
  else if (s.length : Int) ≤ pos then some (.done, .emptyT)
  else
    -- constantPos &= pos.is_unsigned(); constantLen &= len.is_unsigned()
    -- 4294967296 = 2^32: the bound of rational::is_unsigned
    let cPos := decide (pos < 4294967296)
    let cLen := decide (len < 4294967296)
    if cPos && cLen then
      -- cases 2 and 3: zstring::extract clips at the tail either way
      some (.done, .litT ((s.drop pos.toNat).take len.toNat))
    else
      -- get_concat_units of a string literal: one unit per character
      if s.isEmpty then some (.done, .emptyT)
      else if !cPos then none
      else
        -- offset advances over leading units while offset < _pos
        let off := pos.toNat
        if off = 0 ∧ 0 < pos then none
        else if pos = 0 then
          -- _pos == 0 and all operands are units: build the ite chain
          some (.rewriteFull, iteChainX len s s.length)
        -- (offset == as.size() and the constantLen cases cannot apply here)
        else
          some (.rewrite3,
            .substrT (unitsConcatX (s.drop off)) (.subT pos off) (.numT len))

/-- C6 (amended): for a concrete string literal and integer numerals,
`mk_seq_extract` returns the empty sequence when `pos < 0`, `len ≤ 0` or
`pos ≥ |s|`; and when `0 ≤ pos < |s|` and `0 < len < 2^32` — `len` must
also pass the `is_unsigned()` machine-width check — it returns the literal
substring starting at `pos` with `len` clipped at the tail.  The bound on
`s.length` is the zstring invariant (lengths are 32-bit unsigned). -/
theorem mk_seq_extract_concrete (s : List Char) (pos len : Int)
    (hs32 : s.length < 4294967296) :
    (pos < 0 ∨ len ≤ 0 ∨ (s.length : Int) ≤ pos →
      mkSeqExtractLit s pos len = some (.done, .emptyT))
    ∧ (0 ≤ pos → pos < (s.length : Int) → 0 < len → len < 4294967296 →
      mkSeqExtractLit s pos len
        = some (.done, .litT ((s.drop pos.toNat).take len.toNat))) := by
  constructor
  · intro hcase
    rw [mkSeqExtractLit]
    by_cases h1 : len < 0
    · rw [if_pos h1]
    · rw [if_neg h1]
      by_cases h2 : pos < 0 ∨ len ≤ 0
      · rw [if_pos h2]
      · rw [if_neg h2]
        have h3 : (s.length : Int) ≤ pos := by
          rcases hcase with h | h | h
          · exact absurd (Or.inl h) h2
          · exact absurd (Or.inr h) h2
          · exact h
        rw [if_pos h3]
  · intro hpos hlt hlen hlen32
    have hp32 : pos < 4294967296 := by
      have h1 : (s.length : Int) < 4294967296 := by exact_mod_cast hs32
      omega
    rw [mkSeqExtractLit]
    rw [if_neg (by omega), if_neg (by omega), if_neg (by omega)]
    simp only
    rw [if_pos (by simp [hp32, hlen32])]

/-- Witness for C6 at `extract("ab", -1, 5) = ""` and
`extract("ab", 1, 5) = "b"`. -/
theorem mk_seq_extract_concrete_witness :
    mkSeqExtractLit ['a', 'b'] (-1) 5 = some (.done, .emptyT)
    ∧ mkSeqExtractLit ['a', 'b'] 1 5 = some (.done, .litT ['b']) :=
  ⟨(mk_seq_extract_concrete ['a', 'b'] (-1) 5 (by decide)).1
      (Or.inl (by decide)),
   (mk_seq_extract_concrete ['a', 'b'] 1 5 (by decide)).2
      (by decide) (by decide) (by decide) (by decide)⟩

/-- C6 (counterexample): at `s = "a"`, `pos = 0`, `len = 2^32` the
arguments are concrete, `0 ≤ pos < |s|` and `len > 0`, yet
`len.is_unsigned()` fails, so the code falls through to the
units path and returns `ite(2^32 ≥ 1, unit('a'), "")` — not the literal
substring `"a"` the claim promises. -/
theorem mk_seq_extract_huge_len :
    mkSeqExtractLit ['a'] 0 4294967296
      = some (.rewriteFull, .iteGeT 4294967296 1 (.unitT 'a') .emptyT)
    ∧ XTerm.iteGeT 4294967296 1 (.unitT 'a') .emptyT ≠ .litT ['a'] := by
  constructor
  · rfl
  · decide

/-! ## Word-equation solver (`reduce_eq` and its sub-reductions)

Concatenation operands of a word equation: units, string literals, the
empty-sequence constant, opaque symbolic subsequences, `str.from_int`
applications, and nested concatenations (flattened on entry by
`remove_empty_and_concats`).  The `are_equal`/`are_distinct` oracle of the
expression model is not among the provided sources; modelled from the
spec's three-valued always-equal/always-distinct/unknown oracle: identical
hash-consed terms are equal, distinct interpreted characters are
distinct, everything else is unknown. -/

/-- A concatenation operand. -/
inductive Op where
  | unitO (c : CharE)
  | strO (s : List Char)
  | empO
  | svarO (v : Nat)
  | itosO (n : Nat)
  | catO (a b : Op)
deriving DecidableEq

/-- Value of an operand under an assignment. -/
def evalOp (σ : Assign) : Op → List Char
  | .unitO c => [evalCharE σ c]
  | .strO s => s
  | .empO => []
  | .svarO v => σ.sqv v
  | .itosO n => itosVal (σ.inv n)
  | .catO a b => evalOp σ a ++ evalOp σ b

/-- Value of an operand list (the concatenation of its operands). -/
def evalOps (σ : Assign) (l : List Op) : List Char :=
  (l.map (evalOp σ)).flatten

/-- `str().is_unit`. -/
def isUnitO : Op → Bool
  | .unitO _ => true
  | _ => false

/-- `str().is_string`. -/
def isStrLitO : Op → Bool
  | .strO _ => true
  | _ => false

/-- `str().is_concat`. -/
def isConcatO : Op → Bool
  | .catO _ _ => true
  | _ => false

/-- `str().is_empty`: the empty-sequence constant or the literal `""`. -/
def isEmptyO : Op → Bool
  | .empO => true
  | .strO [] => true
  | _ => false

/-- Modelled from the spec: `m().are_distinct` on character-sorted terms —
distinct interpreted character constants are always-distinct, anything
else is unknown. -/
def areDistinctC : CharE → CharE → Bool
  | .cc c, .cc d => decide (c ≠ d)
  | _, _ => false

/-- Modelled from the spec: `m().are_distinct` on sequence operands, as
used by `non_overlap` on unit operands. -/
def areDistinctO : Op → Op → Bool
  | .unitO (.cc c), .unitO (.cc d) => decide (c ≠ d)
  | _, _ => false

/-- Modelled from the spec: `m().are_equal` on sequence operands —
identical hash-consed terms are always-equal. -/
def areEqualO (a b : Op) : Bool := decide (a = b)

/-- Derived equalities accumulated by the reducer: character equalities
(from unit/literal alignment), sequence equalities (forced-empty operands
and residues), and the numeral equation from `reduce_itos`. -/
inductive EqC where
  | ceq (a b : CharE)
  | seqeq (l r : List Op)
  | inteq (n : Nat) (v : Int)
deriving DecidableEq

/-- Satisfaction of one derived equality. -/
def evalEqP (σ : Assign) : EqC → Prop
  | .ceq a b => evalCharE σ a = evalCharE σ b
  | .seqeq l r => evalOps σ l = evalOps σ r
  | .inteq n v => σ.inv n = v

/-- Satisfaction of a list of derived equalities. -/
def eqsSat (σ : Assign) (l : List EqC) : Prop := ∀ e ∈ l, evalEqP σ e

/-- Modelled from the spec: `seq_util::str::get_concat` flattens a
concatenation tree into its leaves, dropping empty leaves. -/
def getConcatO : Op → List Op
  | .catO a b => getConcatO a ++ getConcatO b
  | op => if isEmptyO op then [] else [op]

/-- `seq_rewriter::remove_empty_and_concats`. -/
def removeEmptyAndConcats (es : List Op) : List Op :=
  let hasConcat := es.any isConcatO
  let es1 := es.filter (fun e => !isEmptyO e)
  if hasConcat then (es1.map getConcatO).flatten else es1

/-- Termination measure of the front/back stripping loops: operands count
one plus, for literals, their length. -/
def weight : Op → Nat
  | .strO s => s.length + 1
  | .catO a b => weight a + weight b + 1
  | _ => 1

/-- Total weight of an operand list. -/
def weightL (l : List Op) : Nat := (l.map weight).sum

theorem weight_pos (e : Op) : 0 < weight e := by
  cases e <;> simp only [weight] <;> omega

theorem weightL_append (l1 l2 : List Op) :
    weightL (l1 ++ l2) = weightL l1 + weightL l2 := by
  simp [weightL]

theorem weightL_dropLast {l : List Op} {x : Op} (h : l.getLast? = some x) :
    weightL l = weightL l.dropLast + weight x := by
  have hne : l ≠ [] := by
    intro he
    subst he
    simp at h
  have hx : l.getLast hne = x := by
    have h2 := List.getLast?_eq_getLast l hne
    rw [h2] at h
    exact Option.some.inj h
  conv_lhs => rw [← List.dropLast_append_getLast hne]
  rw [weightL_append, hx]
  simp [weightL]

theorem weightL_single (e : Op) : weightL [e] = weight e := by
  simp [weightL]

theorem weightL_cons (e : Op) (l : List Op) :
    weightL (e :: l) = weight e + weightL l := by
  simp [weightL]

theorem isUnitO_eq_false_of_isStrLitO {e : Op} (h : isStrLitO e = true) :
    isUnitO e = false := by
  cases e <;> first
    | rfl
    | exact absurd h (by simp [isStrLitO])

/-- Flag used only for termination: the back-stripping loop swaps the two
sides (without progress in the measure) when the right end is a unit and
the left end a literal. -/
def backSwapFlag (ls rs : List Op) : Nat :=
  match ls.getLast?, rs.getLast? with
  | some l0, some r0 => if isUnitO r0 && isStrLitO l0 then 1 else 0
  | _, _ => 0

theorem backSwapFlag_one {ls rs : List Op} {l0 r0 : Op}
    (hls : ls.getLast? = some l0) (hrs : rs.getLast? = some r0)
    (h : (isUnitO r0 && isStrLitO l0) = true) : backSwapFlag ls rs = 1 := by
  unfold backSwapFlag
  rw [hls, hrs]
  simp [h]

theorem backSwapFlag_swapped {ls rs : List Op} {l0 r0 : Op}
    (hls : ls.getLast? = some l0) (hrs : rs.getLast? = some r0)
    (h : (isUnitO r0 && isStrLitO l0) = true) : backSwapFlag rs ls = 0 := by
  unfold backSwapFlag
  rw [hrs, hls]
  show (if (isUnitO l0 && isStrLitO r0) = true then 1 else 0) = 0
  simp only [Bool.and_eq_true] at h
  rw [isUnitO_eq_false_of_isStrLitO h.2]
  simp

/-- `seq_rewriter::reduce_back`; `none` models returning `false`
(equation unsatisfiable).  The in-place `ls.swap(rs)` of the source is
rendered as a recursive call with the sides exchanged: the remainder of
the loop iteration and all later iterations read only the swapped
state. -/
def reduceBack (ls rs : List Op) (eqs : List EqC) :
    Option (List Op × List Op × List EqC) :=
  match hls : ls.getLast?, hrs : rs.getLast? with
  | some l0, some r0 =>
    if hsw : isUnitO r0 && isStrLitO l0 then
      reduceBack rs ls eqs
    else if l0 = r0 then
      reduceBack ls.dropLast rs.dropLast eqs
    else
      match l0, r0 with
      | .unitO a, .unitO b =>
          if areDistinctC a b then none
          else reduceBack ls.dropLast rs.dropLast (eqs ++ [.ceq a b])
      | .unitO a, .strO s =>
          match hch : s.getLast? with
          | none => some (ls, rs, eqs)
          | some ch =>
            if s.length = 1 then
              reduceBack ls.dropLast rs.dropLast (eqs ++ [.ceq (.cc ch) a])
            else
              reduceBack ls.dropLast (rs.dropLast ++ [.strO s.dropLast])
                (eqs ++ [.ceq (.cc ch) a])
      | .strO s1, .strO s2 =>
          if s1.reverse.take (min s1.length s2.length) ≠
              s2.reverse.take (min s1.length s2.length) then none
          else
            reduceBack
              (ls.dropLast ++
                if min s1.length s2.length < s1.length then
                  [Op.strO (s1.take (s1.length - min s1.length s2.length))]
                else [])
              (rs.dropLast ++
                if min s1.length s2.length < s2.length then
                  [Op.strO (s2.take (s2.length - min s1.length s2.length))]
                else [])
              eqs
      | _, _ => some (ls, rs, eqs)
  | _, _ => some (ls, rs, eqs)
termination_by 2 * (weightL ls + weightL rs) + backSwapFlag ls rs
decreasing_by
  all_goals simp_wf
  all_goals try (rw [backSwapFlag_one hls hrs hsw,
    backSwapFlag_swapped hls hrs hsw]; omega)
  all_goals
    (have d1 := weightL_dropLast hls
     have d2 := weightL_dropLast hrs
     simp only [weight] at d1 d2
     try have p1 := weight_pos l0
     try have p2 := weight_pos r0
     unfold backSwapFlag
     rw [hls, hrs]
     repeat' split
     all_goals try simp only [weightL_append, weightL_single, weight,
       List.length_dropLast, List.length_take, List.append_nil]
     all_goals omega)

/-- Flag used only for termination of the front-stripping loop. -/
def frontSwapFlag (ls rs : List Op) : Nat :=
  match ls.head?, rs.head? with
  | some l0, some r0 => if isUnitO r0 && isStrLitO l0 then 1 else 0
  | _, _ => 0

theorem not_unit_and_str {e : Op} (h1 : isUnitO e = true)
    (h2 : isStrLitO e = true) : False := by
  cases e <;> simp [isUnitO, isStrLitO] at h1 h2

theorem frontSwapFlag_one {l0 r0 : Op} {ls1 rs1 : List Op}
    (h : (isUnitO r0 && isStrLitO l0) = true) :
    frontSwapFlag (l0 :: ls1) (r0 :: rs1) = 1 := by
  unfold frontSwapFlag
  simp only [List.head?_cons]
  simp [h]

theorem frontSwapFlag_swapped {l0 r0 : Op} {ls1 rs1 : List Op}
    (h : (isUnitO r0 && isStrLitO l0) = true) :
    frontSwapFlag (r0 :: rs1) (l0 :: ls1) = 0 := by
  unfold frontSwapFlag
  simp only [List.head?_cons]
  show (if (isUnitO l0 && isStrLitO r0) = true then 1 else 0) = 0
  simp only [Bool.and_eq_true] at h
  rw [isUnitO_eq_false_of_isStrLitO h.2]
  simp

/-- `seq_rewriter::reduce_front`; the head-index walk plus the final
`remove_leading` of the source is rendered as recursion consuming list
heads. -/
def reduceFront (ls rs : List Op) (eqs : List EqC) :
    Option (List Op × List Op × List EqC) :=
  match ls, rs with
  | [], rs => some ([], rs, eqs)
  | ls, [] => some (ls, [], eqs)
  | l0 :: ls1, r0 :: rs1 =>
    if hsw : isUnitO r0 && isStrLitO l0 then
      reduceFront (r0 :: rs1) (l0 :: ls1) eqs
    else if l0 = r0 then
      reduceFront ls1 rs1 eqs
    else
      match l0, r0 with
      | .unitO a, .unitO b =>
          if areDistinctC a b then none
          else reduceFront ls1 rs1 (eqs ++ [.ceq a b])
      | .unitO a, .strO s =>
          match s with
          | [] => some (l0 :: ls1, r0 :: rs1, eqs)
          | ch :: rest =>
            if s.length = 1 then
              reduceFront ls1 rs1 (eqs ++ [.ceq (.cc ch) a])
            else
              reduceFront ls1 (.strO rest :: rs1) (eqs ++ [.ceq (.cc ch) a])
      | .strO s1, .strO s2 =>
          if s1.take (min s1.length s2.length) ≠
              s2.take (min s1.length s2.length) then none
          else
            reduceFront
              (if min s1.length s2.length = s1.length then ls1
                else .strO (s1.drop (min s1.length s2.length)) :: ls1)
              (if min s1.length s2.length = s2.length then rs1
                else .strO (s2.drop (min s1.length s2.length)) :: rs1)
              eqs
      | _, _ => some (l0 :: ls1, r0 :: rs1, eqs)
termination_by 2 * (weightL ls + weightL rs) + frontSwapFlag ls rs
decreasing_by
  all_goals simp_wf
  all_goals try (rw [frontSwapFlag_one hsw, frontSwapFlag_swapped hsw]; omega)
  all_goals
    (unfold frontSwapFlag
     simp only [List.head?_cons]
     try have p1 := weight_pos l0
     try have p2 := weight_pos r0
     repeat' split
     all_goals try simp only [weightL_cons, weight, List.length_cons,
       List.length_drop]
     all_goals omega)

/-- `seq_rewriter::is_string(n, es, s)`: aggregate the concrete characters
of the operands, which must all be string literals or units of interpreted
characters. -/
def isStringAgg : List Op → Option (List Char)
  | [] => some []
  | .strO s :: rest => (isStringAgg rest).map (fun t => s ++ t)
  | .unitO (.cc c) :: rest => (isStringAgg rest).map (fun t => c :: t)
  | _ => none

/-- Modelled from the spec: the guard `s1 == r.to_string()` of
`reduce_itos`, where `r = rational(s1)` (class `rational` is not among the
provided sources).  Per the spec the reduction applies exactly to "a valid
non-negative decimal encoding", i.e. when printing the parsed value
reproduces the literal. -/
def validDecGuard (s : List Char) : Bool :=
  decide (s = toDecStr (decAccum s))

/-- `seq_rewriter::reduce_itos`: `itos(n) = <numeric string> -> n =
numeric`.  Note that the function returns `true` on every input: an
invalid literal leaves the equation untouched. -/
def reduceItos (ls rs : List Op) (eqs : List EqC) :
    Option (List Op × List Op × List EqC) :=
  match ls with
  | [.itosO n] =>
    match isStringAgg rs with
    | some s =>
        if validDecGuard s then
          some ([], [], eqs ++ [.inteq n ((decAccum s : Nat) : Int)])
        else some (ls, rs, eqs)
    | none => some (ls, rs, eqs)
  | _ => some (ls, rs, eqs)

/-- `seq_rewriter::min_length`: minimal length of the concatenation, and
whether that bound is exact (no symbolic operand). -/
def minLength (es : List Op) : Nat × Bool :=
  es.foldl
    (fun acc e =>
      if isUnitO e then (acc.1 + 1, acc.2)
      else if isEmptyO e then acc
      else
        match e with
        | .strO s => (acc.1 + s.length, acc.2)
        | _ => (acc.1, false))
    (0, true)

/-- `seq_rewriter::set_empty`: assign the non-unit, non-literal operands
to the empty sequence; with `all` set, fail on any unit or non-empty
literal instead. -/
def setEmpty (all : Bool) : List Op → List EqC → Option (List EqC)
  | [], eqs => some eqs
  | e :: rest, eqs =>
    if isUnitO e then
      if all then none else setEmpty all rest eqs
    else if isEmptyO e then setEmpty all rest eqs
    else
      match e with
      | .strO s =>
          if s.length = 0 then setEmpty all rest eqs
          else if all then none else setEmpty all rest eqs
      | _ => setEmpty all rest (eqs ++ [.seqeq [.empO] [e]])

/-- `seq_rewriter::concat_non_empty`: keep only the unit and literal
operands (the remaining ones have just been forced empty). -/
def concatNonEmpty (es : List Op) : List Op :=
  es.filter (fun e => isUnitO e || isStrLitO e)

/-- `seq_rewriter::reduce_by_length`. -/
def reduceByLength (ls rs : List Op) (eqs : List EqC) :
    Option (List Op × List Op × List EqC) :=
  if ls.isEmpty && rs.isEmpty then some (ls, rs, eqs)
  else
    let (len1, bounded1) := minLength ls
    let (len2, bounded2) := minLength rs
    if bounded1 && decide (len1 < len2) then none
    else if bounded2 && decide (len2 < len1) then none
    else if bounded1 && decide (len1 = len2) && decide (0 < len1) then
      match setEmpty false rs eqs with
      | none => none
      | some eqs2 =>
          some ([], [], eqs2 ++ [.seqeq (concatNonEmpty ls) (concatNonEmpty rs)])
    else if bounded2 && decide (len1 = len2) && decide (0 < len1) then
      match setEmpty false ls eqs with
      | none => none
      | some eqs2 =>
          some ([], [], eqs2 ++ [.seqeq (concatNonEmpty ls) (concatNonEmpty rs)])
    else some (ls, rs, eqs)

/-- The scan of `non_overlap`'s `can_overlap` lambda (the zstring
version): positions `start1 ≤ i < end1` of `s1` against positions
`start2 + i` of `s2`; a mismatch refutes the alignment. -/
def canOverlapZ (s1 s2 : List Char) (start1 end1 start2 : Nat) : Bool :=
  ((List.range end1).drop start1).all
    (fun i => s1.getD i ' ' == s2.getD (start2 + i) ' ')

/-- `seq_rewriter::non_overlap` on two concrete strings: no suffix of the
shorter is a prefix of the longer, no prefix a suffix, and no proper
containment, at any alignment. -/
def nonOverlapZ (s1 s2 : List Char) : Bool :=
  if s2.length < s1.length then nonOverlapZ s2 s1
  else
    (!(((List.range s1.length).drop 1).any
        (fun i => canOverlapZ s1 s2 i s1.length 0)))
    && (!((List.range (s2.length - s1.length)).any
        (fun j => canOverlapZ s1 s2 0 s1.length j)))
    && (!(((List.range s2.length).drop (s2.length - s1.length)).any
        (fun j => canOverlapZ s1 s2 0 (s2.length - j) j)))
termination_by (if s2.length < s1.length then 1 else 0)
decreasing_by
  simp_wf
  split_ifs <;> omega

/-- The scan of `non_overlap`'s `can_overlap` lambda (the operand
version): a provably-distinct pair refutes the alignment; a pair not
provably equal conservatively allows it. -/
def canOverlapE (p1 p2 : List Op) (start2 end1 : Nat) (i : Nat) : Bool :=
  if i < end1 then
    if areDistinctO (p1.getD i .empO) (p2.getD (start2 + i) .empO) then false
    else if !areEqualO (p1.getD i .empO) (p2.getD (start2 + i) .empO) then true
    else canOverlapE p1 p2 start2 end1 (i + 1)
  else true
termination_by end1 - i

/-- `seq_rewriter::non_overlap` on two operand runs. -/
def nonOverlapE (p1 p2 : List Op) : Bool :=
  if p2.length < p1.length then nonOverlapE p2 p1
  else if p1.length = 0 || p2.length = 0 then false
  else
    match p1, p2 with
    | [.strO s1], [.strO s2] => nonOverlapZ s1 s2
    | q1, q2 =>
      if !q1.all isUnitO then false
      else if !q2.all isUnitO then false
      else
        (!(((List.range q1.length).drop 1).any
            (fun i => canOverlapE q1 q2 0 q1.length i)))
        && (!((List.range (q2.length - q1.length)).any
            (fun j => canOverlapE q1 q2 j q1.length 0)))
        && (!(((List.range q2.length).drop (q2.length - q1.length)).any
            (fun j => canOverlapE q1 q2 j (q2.length - j) 0)))
termination_by (if p2.length < p1.length then 1 else 0)
decreasing_by
  simp_wf
  split_ifs <;> omega

/-- The maximal-unit-run scan of `reduce_non_overlap`: `true` when some
run of units in `ls` provably cannot overlap the all-unit `rs`. -/
def rnoFails (rs : List Op) : List Op → List Op → Bool
  | pattern, [] => !pattern.isEmpty && nonOverlapE pattern rs
  | pattern, x :: rest =>
    if isUnitO x then rnoFails rs (pattern ++ [x]) rest
    else if !pattern.isEmpty then
      if nonOverlapE pattern rs then true else rnoFails rs [] rest
    else rnoFails rs [] rest

/-- `seq_rewriter::reduce_non_overlap`. -/
def reduceNonOverlap (ls rs : List Op) (eqs : List EqC) :
    Option (List Op × List Op × List EqC) :=
  if rs.all isUnitO then
    if rnoFails rs [] ls then none else some (ls, rs, eqs)
  else some (ls, rs, eqs)

/-- The inner scan of `reduce_subsequence`: first position `j ∉ rpos` of
`rs` matching `x` by identity or unit-kind. -/
def findMatch (x : Op) (rpos : List Nat) : List Op → Nat → Option Nat
  | [], _ => none
  | y :: rest, j =>
    if ¬ rpos.contains j ∧ (x = y ∨ (isUnitO x ∧ isUnitO y)) then some j
    else findMatch x rpos rest (j + 1)

/-- The outer scan of `reduce_subsequence`: greedily match every element
of `ls` to a distinct position of `rs`; `none` when some element finds no
match (the reduction then leaves the pair unchanged). -/
def greedyAll (rs : List Op) : List Op → List Nat → Option (List Nat)
  | [], rpos => some rpos
  | x :: lrest, rpos =>
    match findMatch x rpos rs 0 with
    | none => none
    | some j => greedyAll rs lrest (j :: rpos)

/-- The final partition of `reduce_subsequence`: keep the matched
positions of `rs`, force the unmatched ones empty via
`set_empty(1, &y, true, eqs)`. -/
def forceEmpty (rpos : List Nat) : List Op → Nat → List EqC →
    Option (List Op × List EqC)
  | [], _, eqs => some ([], eqs)
  | y :: rest, i, eqs =>
    if rpos.contains i then
      (forceEmpty rpos rest (i + 1) eqs).map (fun p => (y :: p.1, p.2))
    else
      if isUnitO y then none
      else if isEmptyO y then forceEmpty rpos rest (i + 1) eqs
      else
        match y with
        | .strO s =>
            if s.length = 0 then forceEmpty rpos rest (i + 1) eqs
            else none
        | _ => forceEmpty rpos rest (i + 1) (eqs ++ [.seqeq [.empO] [y]])

/-- The body of `seq_rewriter::reduce_subsequence` after its initial
in-place swap of the two sides (here `ls` is the not-longer side). -/
def reduceSubseqCore (ls rs : List Op) (eqs : List EqC) :
    Option (List Op × List Op × List EqC) :=
  if ls.length = rs.length then some (ls, rs, eqs)
  else if ls.isEmpty && rs.length = 1 then some (ls, rs, eqs)
  else
    match greedyAll rs ls [] with
    | none => some (ls, rs, eqs)
    | some rpos =>
      match forceEmpty rpos rs 0 eqs with
      | none => none
      | some (rs2, eqs2) =>
        if rs2.length = rs.length then some (ls, rs2, eqs2)
        else if ls.isEmpty then some (ls, rs2, eqs2)
        else some ([], [], eqs2 ++ [.seqeq ls rs2])

/-- `seq_rewriter::reduce_subsequence`. -/
def reduceSubseq (ls0 rs0 : List Op) (eqs : List EqC) :
    Option (List Op × List Op × List EqC) :=
  if rs0.length < ls0.length then reduceSubseqCore rs0 ls0 eqs
  else reduceSubseqCore ls0 rs0 eqs

/-- `seq_rewriter::reduce_eq` on two operand lists (the `change` flag of
the source only reports whether anything happened and does not affect the
computed lists).  `none` models returning `false`: the equation is
unsatisfiable. -/
def reduceEqL (ls0 rs0 : List Op) (eqs0 : List EqC) :
    Option (List Op × List Op × List EqC) :=
  let ls1 := removeEmptyAndConcats ls0
  let rs1 := removeEmptyAndConcats rs0
  do
    let (ls2, rs2, eqs2) ← reduceBack ls1 rs1 eqs0
    let (ls3, rs3, eqs3) ← reduceFront ls2 rs2 eqs2
    let (ls4, rs4, eqs4) ← reduceItos ls3 rs3 eqs3
    let (rs5, ls5, eqs5) ← reduceItos rs4 ls4 eqs4
    let (ls6, rs6, eqs6) ← reduceByLength ls5 rs5 eqs5
    let (ls7, rs7, eqs7) ← reduceSubseq ls6 rs6 eqs6
    let (ls8, rs8, eqs8) ← reduceNonOverlap ls7 rs7 eqs7
    let (rs9, ls9, eqs9) ← reduceNonOverlap rs8 ls8 eqs8
    pure (ls9, rs9, eqs9)

/-! ### Evaluation and list lemmas for the reducer proofs -/

theorem evalOps_nil (σ : Assign) : evalOps σ [] = [] := rfl

theorem evalOps_cons (σ : Assign) (e : Op) (l : List Op) :
    evalOps σ (e :: l) = evalOp σ e ++ evalOps σ l := by
  simp [evalOps]

theorem evalOps_append (σ : Assign) (a b : List Op) :
    evalOps σ (a ++ b) = evalOps σ a ++ evalOps σ b := by
  simp [evalOps]

theorem evalOps_single (σ : Assign) (e : Op) :
    evalOps σ [e] = evalOp σ e := by
  simp [evalOps]

theorem evalOps_dropLast (σ : Assign) {l : List Op} {x : Op}
    (h : l.getLast? = some x) :
    evalOps σ l = evalOps σ l.dropLast ++ evalOp σ x := by
  have hne : l ≠ [] := by
    intro he
    subst he
    simp at h
  have hx : l.getLast hne = x := by
    have h2 := List.getLast?_eq_getLast l hne
    rw [h2] at h
    exact Option.some.inj h
  conv_lhs => rw [← List.dropLast_append_getLast hne]
  rw [evalOps_append, hx, evalOps_single]

theorem append_singleton_inj {α : Type} {xs ys : List α} {a b : α} :
    xs ++ [a] = ys ++ [b] ↔ xs = ys ∧ a = b := by
  constructor
  · intro h
    have h2 := congrArg List.reverse h
    simp only [List.reverse_append, List.reverse_singleton,
      List.singleton_append] at h2
    injection h2 with h3 h4
    refine ⟨?_, h3⟩
    have h5 := congrArg List.reverse h4
    simpa using h5
  · rintro ⟨rfl, rfl⟩
    rfl

theorem append_cancel_right_iff {α : Type} {xs ys t : List α} :
    xs ++ t = ys ++ t ↔ xs = ys := by
  constructor
  · intro h
    have h2 := congrArg List.reverse h
    simp only [List.reverse_append] at h2
    have h3 := List.append_cancel_left h2
    have h4 := congrArg List.reverse h3
    simpa using h4
  · rintro rfl
    rfl

theorem areDistinctC_sound {a b : CharE} (h : areDistinctC a b = true)
    (σ : Assign) : evalCharE σ a ≠ evalCharE σ b := by
  cases a <;> cases b <;> simp [areDistinctC] at h <;> simp [evalCharE]
  exact h

/-- `isEmptyO` operands evaluate to the empty sequence. -/
theorem evalOp_of_isEmptyO {e : Op} (h : isEmptyO e = true) (σ : Assign) :
    evalOp σ e = [] := by
  cases e with
  | strO s => cases s <;> simp [isEmptyO] at h ⊢ <;> rfl
  | empO => rfl
  | _ => simp [isEmptyO] at h

theorem eqsSat_nil (σ : Assign) : eqsSat σ [] := by
  simp [eqsSat]

theorem eqsSat_append {σ : Assign} {a b : List EqC} :
    eqsSat σ (a ++ b) ↔ eqsSat σ a ∧ eqsSat σ b := by
  simp [eqsSat, List.mem_append, or_imp, forall_and]

theorem eqsSat_single {σ : Assign} {e : EqC} :
    eqsSat σ [e] ↔ evalEqP σ e := by
  simp [eqsSat]

theorem getLast_decomp {α : Type} {l : List α} {x : α}
    (h : l.getLast? = some x) : l = l.dropLast ++ [x] := by
  have hne : l ≠ [] := by
    intro he
    subst he
    simp at h
  have hx : l.getLast hne = x := by
    have h2 := List.getLast?_eq_getLast l hne
    rw [h2] at h
    exact Option.some.inj h
  conv_lhs => rw [← List.dropLast_append_getLast hne]
  rw [hx]

/-- Equal ends of reversals force the shorter literal to be a suffix of the
longer one. -/
theorem suffix_of_reverse_take_eq {s1 s2 : List Char}
    (h12 : s2.length ≤ s1.length)
    (h : s1.reverse.take s2.length = s2.reverse.take s2.length) :
    s1 = s1.take (s1.length - s2.length) ++ s2 := by
  have h2 : s2.reverse.take s2.length = s2.reverse :=
    List.take_of_length_le (by simp)
  have h3 : (s1.drop (s1.length - s2.length)).reverse =
      s1.reverse.take (s1.length - (s1.length - s2.length)) :=
    List.reverse_drop
  have h4 : s1.length - (s1.length - s2.length) = s2.length := by omega
  rw [h4] at h3
  have h5 : (s1.drop (s1.length - s2.length)).reverse = s2.reverse := by
    rw [h3, h, h2]
  have h6 : s1.drop (s1.length - s2.length) = s2 := List.reverse_inj.mp h5
  conv_lhs => rw [← List.take_append_drop (s1.length - s2.length) s1]
  rw [h6]

theorem evalOps_getConcatO (σ : Assign) (e : Op) :
    evalOps σ (getConcatO e) = evalOp σ e := by
  induction e with
  | catO a b iha ihb =>
      simp only [getConcatO, evalOps_append, iha, ihb, evalOp]
  | strO s => cases s <;> simp [getConcatO, isEmptyO, evalOps, evalOp]
  | unitO c => simp [getConcatO, isEmptyO, evalOps, evalOp]
  | empO => simp [getConcatO, isEmptyO, evalOps, evalOp]
  | svarO v => simp [getConcatO, isEmptyO, evalOps, evalOp]
  | itosO n => simp [getConcatO, isEmptyO, evalOps, evalOp]

theorem evalOps_flatten_getConcatO (σ : Assign) (es : List Op) :
    evalOps σ ((es.map getConcatO).flatten) = evalOps σ es := by
  induction es with
  | nil => rfl
  | cons e rest ih =>
      simp only [List.map_cons, List.flatten_cons, evalOps_append, ih,
        evalOps_getConcatO, evalOps_cons]

theorem evalOps_filter_nonempty (σ : Assign) (es : List Op) :
    evalOps σ (es.filter (fun e => !isEmptyO e)) = evalOps σ es := by
  induction es with
  | nil => rfl
  | cons e rest ih =>
      by_cases he : isEmptyO e = true
      · rw [List.filter_cons_of_neg (by simp [he])]
        rw [ih, evalOps_cons, evalOp_of_isEmptyO he]
        simp
      · rw [List.filter_cons_of_pos (by simp [he])]
        rw [evalOps_cons, evalOps_cons, ih]

theorem evalOps_removeEmptyAndConcats (σ : Assign) (es : List Op) :
    evalOps σ (removeEmptyAndConcats es) = evalOps σ es := by
  unfold removeEmptyAndConcats
  by_cases h : es.any isConcatO = true
  · simp only [h, if_true]
    rw [evalOps_flatten_getConcatO, evalOps_filter_nonempty]
  · simp only [h, Bool.false_eq_true, if_false]
    rw [evalOps_filter_nonempty]

/-- Correctness of one reduction stage: a `none` result refutes the current
equation together with the accumulated equalities, and a `some` result is
equisatisfiable with them, assignment by assignment. -/
def StageOk (ls rs : List Op) (eqs : List EqC)
    (out : Option (List Op × List Op × List EqC)) : Prop :=
  match out with
  | none => ∀ σ : Assign, ¬ (evalOps σ ls = evalOps σ rs ∧ eqsSat σ eqs)
  | some (ls2, rs2, eqs2) => ∀ σ : Assign,
      (evalOps σ ls = evalOps σ rs ∧ eqsSat σ eqs) ↔
      (evalOps σ ls2 = evalOps σ rs2 ∧ eqsSat σ eqs2)

theorem stageOk_refl (ls rs : List Op) (eqs : List EqC) :
    StageOk ls rs eqs (some (ls, rs, eqs)) := fun _ => Iff.rfl

theorem stageOk_of_swap {ls rs : List Op} {eqs : List EqC}
    {out : Option (List Op × List Op × List EqC)}
    (h : StageOk rs ls eqs out) : StageOk ls rs eqs out := by
  cases out with
  | none =>
      intro σ hc
      exact h σ ⟨hc.1.symm, hc.2⟩
  | some p =>
      obtain ⟨a, b, c⟩ := p
      intro σ
      have h2 := h σ
      constructor
      · intro hc
        exact h2.mp ⟨hc.1.symm, hc.2⟩
      · intro hc
        have h3 := h2.mpr hc
        exact ⟨h3.1.symm, h3.2⟩

theorem stageOk_swap_some {ls rs a b : List Op} {eqs c : List EqC}
    (h : StageOk rs ls eqs (some (b, a, c))) :
    StageOk ls rs eqs (some (a, b, c)) := by
  intro σ
  have h2 := h σ
  constructor
  · intro hc
    have h3 := h2.mp ⟨hc.1.symm, hc.2⟩
    exact ⟨h3.1.symm, h3.2⟩
  · intro hc
    have h3 := h2.mpr ⟨hc.1.symm, hc.2⟩
    exact ⟨h3.1.symm, h3.2⟩

theorem stageOk_trans {ls rs a b : List Op} {eqs c : List EqC}
    {out : Option (List Op × List Op × List EqC)}
    (h1 : StageOk ls rs eqs (some (a, b, c)))
    (h2 : StageOk a b c out) : StageOk ls rs eqs out := by
  cases out with
  | none =>
      intro σ hc
      exact h2 σ ((h1 σ).mp hc)
  | some p =>
      obtain ⟨x, y, z⟩ := p
      intro σ
      exact (h1 σ).trans (h2 σ)

theorem weightL_dropLast_lt {l : List Op} {x : Op} (h : l.getLast? = some x) :
    weightL l.dropLast < weightL l := by
  rw [weightL_dropLast h]
  have := weight_pos x
  omega

/-- Back-stripping preserves satisfiability of the equation together with
the accumulated equalities, and refutes only unsatisfiable states. -/
theorem reduceBack_ok (ls rs : List Op) (eqs : List EqC) :
    StageOk ls rs eqs (reduceBack ls rs eqs) := by
  rw [reduceBack.eq_def]
  split
  · next l0 r0 hls hrs =>
    by_cases hsw : (isUnitO r0 && isStrLitO l0) = true
    · rw [dif_pos hsw]
      exact stageOk_of_swap (reduceBack_ok rs ls eqs)
    · rw [dif_neg hsw]
      by_cases heq : l0 = r0
      · rw [if_pos heq]
        subst heq
        refine stageOk_trans ?_ (reduceBack_ok ls.dropLast rs.dropLast eqs)
        intro σ
        rw [evalOps_dropLast σ hls, evalOps_dropLast σ hrs,
          append_cancel_right_iff]
      · rw [if_neg heq]
        split
        · rename_i a b hsw2
          by_cases hd : areDistinctC a b = true
          · rw [if_pos hd]
            intro σ hc
            have h1 := hc.1
            rw [evalOps_dropLast σ hls, evalOps_dropLast σ hrs] at h1
            simp only [evalOp] at h1
            exact areDistinctC_sound hd σ (append_singleton_inj.mp h1).2
          · rw [if_neg hd]
            refine stageOk_trans ?_
              (reduceBack_ok ls.dropLast rs.dropLast (eqs ++ [.ceq a b]))
            intro σ
            rw [evalOps_dropLast σ hls, evalOps_dropLast σ hrs]
            simp only [evalOp]
            rw [append_singleton_inj, eqsSat_append, eqsSat_single]
            simp only [evalEqP]
            constructor
            · rintro ⟨⟨hdr, hab⟩, hs⟩
              exact ⟨hdr, hs, hab⟩
            · rintro ⟨hdr, hs, hab⟩
              exact ⟨⟨hdr, hab⟩, hs⟩
        · rename_i a s hsw2
          split
          · exact stageOk_refl _ _ _
          · rename_i ch hch
            by_cases hlen : s.length = 1
            · rw [if_pos hlen]
              refine stageOk_trans ?_
                (reduceBack_ok ls.dropLast rs.dropLast
                  (eqs ++ [.ceq (.cc ch) a]))
              intro σ
              have hs : s = [ch] := by
                have hdec := getLast_decomp hch
                have hl : s.dropLast = [] := by
                  apply List.eq_nil_of_length_eq_zero
                  have h2 : s.length = s.dropLast.length + 1 := by
                    conv_lhs => rw [hdec]
                    rw [List.length_append, List.length_singleton]
                  omega
                rw [hl] at hdec
                simpa using hdec
              rw [evalOps_dropLast σ hls, evalOps_dropLast σ hrs]
              simp only [evalOp, hs]
              rw [append_singleton_inj, eqsSat_append, eqsSat_single]
              simp only [evalEqP, evalCharE]
              constructor
              · rintro ⟨⟨hdr, hab⟩, hsat⟩
                exact ⟨hdr, hsat, hab.symm⟩
              · rintro ⟨hdr, hsat, hab⟩
                exact ⟨⟨hdr, hab.symm⟩, hsat⟩
            · rw [if_neg hlen]
              refine stageOk_trans ?_
                (reduceBack_ok ls.dropLast (rs.dropLast ++ [.strO s.dropLast])
                  (eqs ++ [.ceq (.cc ch) a]))
              intro σ
              have hdec := getLast_decomp hch
              rw [evalOps_dropLast σ hls, evalOps_dropLast σ hrs,
                evalOps_append, evalOps_single]
              simp only [evalOp]
              have hx : evalOps σ rs.dropLast ++ s =
                  (evalOps σ rs.dropLast ++ s.dropLast) ++ [ch] := by
                conv_lhs => rw [hdec]
                rw [List.append_assoc]
              rw [hx, append_singleton_inj, eqsSat_append, eqsSat_single]
              simp only [evalEqP, evalCharE]
              constructor
              · rintro ⟨⟨hdr, hab⟩, hsat⟩
                exact ⟨hdr, hsat, hab.symm⟩
              · rintro ⟨hdr, hsat, hab⟩
                exact ⟨⟨hdr, hab.symm⟩, hsat⟩
        · rename_i s1 s2 hsw2
          by_cases hne : s1.reverse.take (min s1.length s2.length) =
              s2.reverse.take (min s1.length s2.length)
          · rw [if_neg (not_not_intro hne)]
            rcases Nat.lt_trichotomy s1.length s2.length with hm | hm | hm
            · have hmin : min s1.length s2.length = s1.length :=
                Nat.min_eq_left (le_of_lt hm)
              rw [hmin] at hne ⊢
              rw [if_neg (lt_irrefl _), if_pos hm]
              refine stageOk_trans ?_ (reduceBack_ok _ _ _)
              intro σ
              have hsfx : s2 = s2.take (s2.length - s1.length) ++ s1 :=
                suffix_of_reverse_take_eq (le_of_lt hm) hne.symm
              rw [evalOps_dropLast σ hls, evalOps_dropLast σ hrs]
              simp only [evalOps_append, evalOps_single, evalOps_nil, evalOp,
                List.append_nil]
              have hx : evalOps σ rs.dropLast ++ s2 =
                  (evalOps σ rs.dropLast ++ s2.take (s2.length - s1.length))
                    ++ s1 := by
                conv_lhs => rw [hsfx]
                rw [List.append_assoc]
              rw [hx, append_cancel_right_iff]
            · have hmin : min s1.length s2.length = s2.length := by omega
              rw [hmin] at hne ⊢
              rw [if_neg (by omega), if_neg (by omega)]
              refine stageOk_trans ?_ (reduceBack_ok _ _ _)
              intro σ
              have hs12 : s1 = s2 := by
                have e1 : s1.reverse.take s2.length = s1.reverse :=
                  List.take_of_length_le (by simp; omega)
                have e2 : s2.reverse.take s2.length = s2.reverse :=
                  List.take_of_length_le (by simp)
                rw [e1, e2] at hne
                exact List.reverse_inj.mp hne
              rw [evalOps_dropLast σ hls, evalOps_dropLast σ hrs]
              simp only [evalOps_append, evalOps_nil, evalOp, List.append_nil]
              rw [hs12, append_cancel_right_iff]
            · have hmin : min s1.length s2.length = s2.length :=
                Nat.min_eq_right (le_of_lt hm)
              rw [hmin] at hne ⊢
              rw [if_pos hm, if_neg (lt_irrefl _)]
              refine stageOk_trans ?_ (reduceBack_ok _ _ _)
              intro σ
              have hsfx : s1 = s1.take (s1.length - s2.length) ++ s2 :=
                suffix_of_reverse_take_eq (le_of_lt hm) hne
              rw [evalOps_dropLast σ hls, evalOps_dropLast σ hrs]
              simp only [evalOps_append, evalOps_single, evalOps_nil, evalOp,
                List.append_nil]
              have hx : evalOps σ ls.dropLast ++ s1 =
                  (evalOps σ ls.dropLast ++ s1.take (s1.length - s2.length))
                    ++ s2 := by
                conv_lhs => rw [hsfx]
                rw [List.append_assoc]
              rw [hx, append_cancel_right_iff]
          · rw [if_pos (by simpa using hne)]
            intro σ hc
            have h1 := hc.1
            rw [evalOps_dropLast σ hls, evalOps_dropLast σ hrs] at h1
            simp only [evalOp] at h1
            apply hne
            have h2 := congrArg List.reverse h1
            simp only [List.reverse_append] at h2
            have h3 : (s1.reverse ++ (evalOps σ ls.dropLast).reverse).take
                (min s1.length s2.length) =
                (s2.reverse ++ (evalOps σ rs.dropLast).reverse).take
                (min s1.length s2.length) := by rw [h2]
            rw [List.take_append_of_le_length
                (by simp only [List.length_reverse]; omega),
              List.take_append_of_le_length
                (by simp only [List.length_reverse]; omega)] at h3
            exact h3
        all_goals exact stageOk_refl _ _ _
  · exact stageOk_refl _ _ _
termination_by 2 * (weightL ls + weightL rs) + backSwapFlag ls rs
decreasing_by
  all_goals simp_wf
  all_goals rename ls.getLast? = some _ => hlsA
  all_goals rename rs.getLast? = some _ => hrsA
  all_goals try (rw [backSwapFlag_one hlsA hrsA hsw,
    backSwapFlag_swapped hlsA hrsA hsw]; omega)
  all_goals
    (have d1 := weightL_dropLast hlsA
     have d2 := weightL_dropLast hrsA
     have d3 := weightL_dropLast_lt hlsA
     have d4 := weightL_dropLast_lt hrsA
     simp only [weight] at d1 d2
     unfold backSwapFlag
     rw [hlsA, hrsA]
     repeat' split
     all_goals try simp only [weightL_append, weightL_single, weight,
       List.length_dropLast, List.length_take, List.append_nil]
     all_goals omega)

theorem cons_inj_iff {α : Type} {a b : α} {xs ys : List α} :
    a :: xs = b :: ys ↔ a = b ∧ xs = ys := by
  simp

theorem append_cancel_left_iff {α : Type} {t xs ys : List α} :
    t ++ xs = t ++ ys ↔ xs = ys :=
  ⟨List.append_cancel_left, by rintro rfl; rfl⟩

theorem frontSwapFlag_le_one (ls rs : List Op) : frontSwapFlag ls rs ≤ 1 := by
  unfold frontSwapFlag
  repeat' split
  all_goals omega

theorem frontDec_swap {l0 r0 : Op} {ls1 rs1 : List Op}
    (h : (isUnitO r0 && isStrLitO l0) = true) :
    2 * (weightL (r0 :: rs1) + weightL (l0 :: ls1)) +
      frontSwapFlag (r0 :: rs1) (l0 :: ls1) <
    2 * (weightL (l0 :: ls1) + weightL (r0 :: rs1)) +
      frontSwapFlag (l0 :: ls1) (r0 :: rs1) := by
  rw [frontSwapFlag_one h, frontSwapFlag_swapped h]
  omega

theorem frontDec_pop (l0 r0 : Op) (ls1 rs1 : List Op) :
    2 * (weightL ls1 + weightL rs1) + frontSwapFlag ls1 rs1 <
    2 * (weightL (l0 :: ls1) + weightL (r0 :: rs1)) +
      frontSwapFlag (l0 :: ls1) (r0 :: rs1) := by
  have p1 := weight_pos l0
  have p2 := weight_pos r0
  have f1 := frontSwapFlag_le_one ls1 rs1
  simp only [weightL_cons]
  omega

theorem frontDec_unitstr (a : CharE) (ch : Char) (rest : List Char)
    (ls1 rs1 : List Op) :
    2 * (weightL ls1 + weightL (.strO rest :: rs1)) +
      frontSwapFlag ls1 (.strO rest :: rs1) <
    2 * (weightL (.unitO a :: ls1) + weightL (.strO (ch :: rest) :: rs1)) +
      frontSwapFlag (.unitO a :: ls1) (.strO (ch :: rest) :: rs1) := by
  have f1 := frontSwapFlag_le_one ls1 (.strO rest :: rs1)
  simp only [weightL_cons, weight, List.length_cons]
  omega

theorem frontDec_strR (s1 s2 : List Char) (ls1 rs1 : List Op) :
    2 * (weightL ls1 + weightL (.strO (s2.drop s1.length) :: rs1)) +
      frontSwapFlag ls1 (.strO (s2.drop s1.length) :: rs1) <
    2 * (weightL (.strO s1 :: ls1) + weightL (.strO s2 :: rs1)) +
      frontSwapFlag (.strO s1 :: ls1) (.strO s2 :: rs1) := by
  have f1 := frontSwapFlag_le_one ls1 (.strO (s2.drop s1.length) :: rs1)
  simp only [weightL_cons, weight, List.length_drop]
  omega

theorem frontDec_strL (s1 s2 : List Char) (ls1 rs1 : List Op) :
    2 * (weightL (.strO (s1.drop s2.length) :: ls1) + weightL rs1) +
      frontSwapFlag (.strO (s1.drop s2.length) :: ls1) rs1 <
    2 * (weightL (.strO s1 :: ls1) + weightL (.strO s2 :: rs1)) +
      frontSwapFlag (.strO s1 :: ls1) (.strO s2 :: rs1) := by
  have f1 := frontSwapFlag_le_one (.strO (s1.drop s2.length) :: ls1) rs1
  simp only [weightL_cons, weight, List.length_drop]
  omega

set_option maxHeartbeats 2000000 in
/-- Front-stripping preserves satisfiability of the equation together with
the accumulated equalities, and refutes only unsatisfiable states. -/
theorem reduceFront_ok (ls rs : List Op) (eqs : List EqC) :
    StageOk ls rs eqs (reduceFront ls rs eqs) := by
  rw [reduceFront.eq_def]
  split
  · exact stageOk_refl _ _ _
  · exact stageOk_refl _ _ _
  · rename_i l0 ls1 r0 rs1
    by_cases hsw : (isUnitO r0 && isStrLitO l0) = true
    · rw [dif_pos hsw]
      exact stageOk_of_swap (reduceFront_ok (r0 :: rs1) (l0 :: ls1) eqs)
    · rw [dif_neg hsw]
      by_cases heq : l0 = r0
      · rw [if_pos heq]
        subst heq
        refine stageOk_trans ?_ (reduceFront_ok ls1 rs1 eqs)
        intro σ
        rw [evalOps_cons, evalOps_cons, append_cancel_left_iff]
      · rw [if_neg heq]
        split
        · rename_i a b hsw2
          by_cases hd : areDistinctC a b = true
          · rw [if_pos hd]
            intro σ hc
            have h1 := hc.1
            rw [evalOps_cons, evalOps_cons] at h1
            simp only [evalOp, List.singleton_append] at h1
            exact areDistinctC_sound hd σ (cons_inj_iff.mp h1).1
          · rw [if_neg hd]
            refine stageOk_trans ?_
              (reduceFront_ok ls1 rs1 (eqs ++ [.ceq a b]))
            intro σ
            rw [evalOps_cons, evalOps_cons]
            simp only [evalOp, List.singleton_append]
            rw [cons_inj_iff, eqsSat_append, eqsSat_single]
            simp only [evalEqP]
            constructor
            · rintro ⟨⟨hab, hdr⟩, hs⟩
              exact ⟨hdr, hs, hab⟩
            · rintro ⟨hdr, hs, hab⟩
              exact ⟨⟨hab, hdr⟩, hs⟩
        · rename_i a s hsw2
          split
          · exact stageOk_refl _ _ _
          · rename_i ch rest hswX
            by_cases hlen : (ch :: rest).length = 1
            · rw [if_pos hlen]
              refine stageOk_trans ?_
                (reduceFront_ok ls1 rs1 (eqs ++ [.ceq (.cc ch) a]))
              intro σ
              have hrest : rest = [] := by
                apply List.eq_nil_of_length_eq_zero
                simp only [List.length_cons] at hlen
                omega
              subst hrest
              rw [evalOps_cons, evalOps_cons]
              simp only [evalOp, List.singleton_append]
              rw [cons_inj_iff, eqsSat_append, eqsSat_single]
              simp only [evalEqP, evalCharE]
              constructor
              · rintro ⟨⟨hab, hdr⟩, hsat⟩
                exact ⟨hdr, hsat, hab.symm⟩
              · rintro ⟨hdr, hsat, hab⟩
                exact ⟨⟨hab.symm, hdr⟩, hsat⟩
            · rw [if_neg hlen]
              refine stageOk_trans ?_
                (reduceFront_ok ls1 (.strO rest :: rs1)
                  (eqs ++ [.ceq (.cc ch) a]))
              intro σ
              rw [evalOps_cons, evalOps_cons, evalOps_cons]
              simp only [evalOp, List.singleton_append, List.cons_append]
              rw [cons_inj_iff, eqsSat_append, eqsSat_single]
              simp only [evalEqP, evalCharE]
              constructor
              · rintro ⟨⟨hab, hdr⟩, hsat⟩
                exact ⟨hdr, hsat, hab.symm⟩
              · rintro ⟨hdr, hsat, hab⟩
                exact ⟨⟨hab.symm, hdr⟩, hsat⟩
        · rename_i s1 s2 hsw2
          by_cases hne : s1.take (min s1.length s2.length) =
              s2.take (min s1.length s2.length)
          · rw [if_neg (not_not_intro hne)]
            rcases Nat.lt_trichotomy s1.length s2.length with hm | hm | hm
            · have hmin : min s1.length s2.length = s1.length :=
                Nat.min_eq_left (le_of_lt hm)
              rw [hmin] at hne ⊢
              rw [if_pos rfl, if_neg (by omega)]
              refine stageOk_trans ?_ (reduceFront_ok _ _ _)
              intro σ
              have hpre : s2 = s1 ++ s2.drop s1.length := by
                conv_lhs => rw [← List.take_append_drop s1.length s2]
                rw [List.take_length] at hne
                rw [← hne]
              rw [evalOps_cons, evalOps_cons, evalOps_cons]
              simp only [evalOp]
              have hx : s2 ++ evalOps σ rs1 =
                  s1 ++ (s2.drop s1.length ++ evalOps σ rs1) := by
                conv_lhs => rw [hpre]
                rw [List.append_assoc]
              rw [hx, append_cancel_left_iff]
            · have hmin : min s1.length s2.length = s1.length := by omega
              rw [hmin] at hne ⊢
              rw [if_pos rfl, if_pos hm]
              refine stageOk_trans ?_ (reduceFront_ok _ _ _)
              intro σ
              have hs12 : s1 = s2 := by
                rw [List.take_length] at hne
                rw [hne, List.take_of_length_le (by omega)]
              rw [evalOps_cons, evalOps_cons]
              simp only [evalOp]
              rw [hs12, append_cancel_left_iff]
            · have hmin : min s1.length s2.length = s2.length :=
                Nat.min_eq_right (le_of_lt hm)
              rw [hmin] at hne ⊢
              rw [if_neg (by omega), if_pos rfl]
              refine stageOk_trans ?_ (reduceFront_ok _ _ _)
              intro σ
              have hpre : s1 = s2 ++ s1.drop s2.length := by
                conv_lhs => rw [← List.take_append_drop s2.length s1]
                rw [List.take_length] at hne
                rw [hne]
              rw [evalOps_cons, evalOps_cons, evalOps_cons]
              simp only [evalOp]
              have hx : s1 ++ evalOps σ ls1 =
                  s2 ++ (s1.drop s2.length ++ evalOps σ ls1) := by
                conv_lhs => rw [hpre]
                rw [List.append_assoc]
              rw [hx, append_cancel_left_iff]
          · rw [if_pos (by simpa using hne)]
            intro σ hc
            have h1 := hc.1
            rw [evalOps_cons, evalOps_cons] at h1
            simp only [evalOp] at h1
            apply hne
            have h3 : (s1 ++ evalOps σ ls1).take (min s1.length s2.length) =
                (s2 ++ evalOps σ rs1).take (min s1.length s2.length) := by
              rw [h1]
            rw [List.take_append_of_le_length (by omega),
              List.take_append_of_le_length (by omega)] at h3
            exact h3
        all_goals exact stageOk_refl _ _ _
termination_by 2 * (weightL ls + weightL rs) + frontSwapFlag ls rs
decreasing_by
  all_goals simp_wf
  all_goals subst_vars
  all_goals first
    | (apply frontDec_swap; assumption)
    | apply frontDec_pop
    | apply frontDec_unitstr
    | apply frontDec_strR
    | apply frontDec_strL

theorem toDecStr_ne_nil (n : Nat) : toDecStr n ≠ [] := by
  unfold toDecStr
  split
  · simp
  · next h =>
    intro hc
    have h2 := congrArg List.length hc
    simp only [List.length_map, List.length_reverse, List.length_nil] at h2
    exact Nat.digits_ne_nil_iff_ne_zero.mpr h (List.eq_nil_of_length_eq_zero h2)

theorem itosVal_eq_iff {k : Int} {s : List Char} (hv : validDecGuard s = true) :
    itosVal k = s ↔ k = ((decAccum s : Nat) : Int) := by
  have hs : s = toDecStr (decAccum s) := by
    unfold validDecGuard at hv
    exact of_decide_eq_true hv
  constructor
  · intro h
    unfold itosVal at h
    by_cases hk : k < 0
    · rw [if_pos hk] at h
      rw [← h] at hs
      exact absurd hs.symm (toDecStr_ne_nil _)
    · rw [if_neg hk] at h
      have h2 : decAccum (toDecStr k.toNat) = decAccum s := by rw [h]
      rw [decAccum_toDecStr] at h2
      omega
  · intro h
    subst h
    unfold itosVal
    rw [if_neg (by omega)]
    have h3 : ((decAccum s : Nat) : Int).toNat = decAccum s := by omega
    rw [h3]
    exact hs.symm

theorem evalOps_isStringAgg (σ : Assign) (rs : List Op) :
    ∀ s, isStringAgg rs = some s → evalOps σ rs = s := by
  induction rs with
  | nil =>
      intro s h
      simp only [isStringAgg, Option.some.injEq] at h
      subst h
      rfl
  | cons e rest ih =>
      intro s h
      cases e with
      | strO t =>
          cases hr : isStringAgg rest with
          | none => rw [isStringAgg, hr] at h; simp at h
          | some u =>
              rw [isStringAgg, hr] at h
              simp at h
              rw [evalOps_cons]
              simp only [evalOp]
              rw [ih u hr]
              exact h
      | unitO c =>
          cases c with
          | cc ch =>
              cases hr : isStringAgg rest with
              | none => rw [isStringAgg, hr] at h; simp at h
              | some u =>
                  rw [isStringAgg, hr] at h
                  simp at h
                  rw [evalOps_cons]
                  simp only [evalOp, evalCharE]
                  rw [ih u hr]
                  rw [List.singleton_append]
                  exact h
          | cv v => simp [isStringAgg] at h
      | empO => simp [isStringAgg] at h
      | svarO v => simp [isStringAgg] at h
      | itosO n => simp [isStringAgg] at h
      | catO x y => simp [isStringAgg] at h

/-- The `itos` stage preserves satisfiability and never refutes. -/
theorem reduceItos_ok (ls rs : List Op) (eqs : List EqC) :
    StageOk ls rs eqs (reduceItos ls rs eqs) := by
  unfold reduceItos
  split
  · rename_i n
    split
    · rename_i s hagg
      by_cases hv : validDecGuard s = true
      · rw [if_pos hv]
        intro σ
        have hr := evalOps_isStringAgg σ rs s hagg
        rw [hr, evalOps_single]
        simp only [evalOp, evalOps_nil]
        rw [itosVal_eq_iff hv, eqsSat_append, eqsSat_single]
        simp only [evalEqP]
        constructor
        · rintro ⟨hk, hsat⟩
          exact ⟨trivial, hsat, hk⟩
        · rintro ⟨-, hsat, hk⟩
          exact ⟨hk, hsat⟩
      · rw [if_neg hv]
        exact stageOk_refl _ _ _
    · exact stageOk_refl _ _ _
  · exact stageOk_refl _ _ _

/-- The contribution of one operand to the minimal-length bound. -/
def lenC (e : Op) : Nat :=
  if isUnitO e then 1 else
    match e with
    | .strO s => s.length
    | _ => 0

/-- The minimal-length bound of an operand list (first component of
`minLength`). -/
def lenLB : List Op → Nat
  | [] => 0
  | e :: rest => lenC e + lenLB rest

/-- Whether the minimal-length bound is exact (second component of
`minLength`): every operand is a unit, an empty constant, or a literal. -/
def exactLen : List Op → Bool
  | [] => true
  | e :: rest => (isUnitO e || isEmptyO e || isStrLitO e) && exactLen rest

theorem minLength_go (es : List Op) : ∀ a b, es.foldl
    (fun acc e =>
      if isUnitO e then (acc.1 + 1, acc.2)
      else if isEmptyO e then acc
      else
        match e with
        | .strO s => (acc.1 + s.length, acc.2)
        | _ => (acc.1, false)) (a, b) = (a + lenLB es, b && exactLen es) := by
  induction es with
  | nil => intro a b; simp [lenLB, exactLen]
  | cons e rest ih =>
      intro a b
      cases e with
      | unitO c =>
          refine (ih (a + 1) b).trans ?_
          simp only [lenLB, lenC, exactLen, isUnitO, isEmptyO, isStrLitO,
            Prod.mk.injEq, Bool.true_or, Bool.true_and, if_true]
          exact ⟨by omega, by simp⟩
      | strO s =>
          cases s with
          | nil =>
              refine (ih a b).trans ?_
              simp only [lenLB, lenC, exactLen, isUnitO, isEmptyO, isStrLitO,
                Prod.mk.injEq, List.length_nil, Bool.or_true, Bool.true_and,
                Bool.false_or, if_false, Bool.false_eq_true]
              exact ⟨by omega, by simp⟩
          | cons c cs =>
              refine (ih (a + (c :: cs).length) b).trans ?_
              simp only [lenLB, lenC, exactLen, isUnitO, isEmptyO, isStrLitO,
                Prod.mk.injEq, Bool.or_true, Bool.true_and, Bool.false_or,
                if_false, Bool.false_eq_true]
              exact ⟨by omega, by simp⟩
      | empO =>
          refine (ih a b).trans ?_
          simp only [lenLB, lenC, exactLen, isUnitO, isEmptyO, isStrLitO,
            Prod.mk.injEq, Bool.or_true, Bool.true_or, Bool.true_and,
            Bool.false_or, if_false, if_true, Bool.false_eq_true]
          exact ⟨by omega, by simp⟩
      | svarO v =>
          refine (ih a false).trans ?_
          simp only [lenLB, lenC, exactLen, isUnitO, isEmptyO, isStrLitO,
            Prod.mk.injEq, Bool.or_self, Bool.false_or, Bool.false_and,
            Bool.and_false, if_false, Bool.false_eq_true]
          exact ⟨by omega, by simp⟩
      | itosO n =>
          refine (ih a false).trans ?_
          simp only [lenLB, lenC, exactLen, isUnitO, isEmptyO, isStrLitO,
            Prod.mk.injEq, Bool.or_self, Bool.false_or, Bool.false_and,
            Bool.and_false, if_false, Bool.false_eq_true]
          exact ⟨by omega, by simp⟩
      | catO x y =>
          refine (ih a false).trans ?_
          simp only [lenLB, lenC, exactLen, isUnitO, isEmptyO, isStrLitO,
            Prod.mk.injEq, Bool.or_self, Bool.false_or, Bool.false_and,
            Bool.and_false, if_false, Bool.false_eq_true]
          exact ⟨by omega, by simp⟩

theorem minLength_eq (es : List Op) :
    minLength es = (lenLB es, exactLen es) := by
  unfold minLength
  exact (minLength_go es 0 true).trans (by simp)

theorem lenC_le (σ : Assign) (e : Op) : lenC e ≤ (evalOp σ e).length := by
  cases e <;> simp [lenC, isUnitO, evalOp]

theorem lenLB_le (σ : Assign) (es : List Op) :
    lenLB es ≤ (evalOps σ es).length := by
  induction es with
  | nil => simp [lenLB, evalOps_nil]
  | cons e rest ih =>
      rw [evalOps_cons, List.length_append]
      have := lenC_le σ e
      simp only [lenLB]
      omega

theorem exactLen_len (σ : Assign) {es : List Op} (h : exactLen es = true) :
    (evalOps σ es).length = lenLB es := by
  induction es with
  | nil => simp [lenLB, evalOps_nil]
  | cons e rest ih =>
      simp only [exactLen, Bool.and_eq_true] at h
      rw [evalOps_cons, List.length_append, ih h.2]
      simp only [lenLB]
      have hval : (evalOp σ e).length = lenC e := by
        rcases Bool.or_eq_true_iff.mp h.1 with h1 | h1
        · rcases Bool.or_eq_true_iff.mp h1 with h2 | h2
          · cases e <;> simp [isUnitO, lenC, evalOp] at h2 ⊢
          · cases e with
            | strO s => cases s <;> simp [isEmptyO, lenC, isUnitO, evalOp]
            | empO => simp [lenC, isUnitO, evalOp]
            | _ => simp [isEmptyO] at h2
        · cases e with
          | strO s => simp [lenC, isUnitO, evalOp]
          | _ => simp [isStrLitO] at h1
      omega

/-- The equalities added by `set_empty` on the symbolic operands. -/
def emptyEqs : List Op → List EqC
  | [] => []
  | e :: rest =>
      (if isUnitO e || isEmptyO e || isStrLitO e then []
        else [.seqeq [.empO] [e]]) ++ emptyEqs rest

theorem setEmpty_false_eq (es : List Op) : ∀ eqs,
    setEmpty false es eqs = some (eqs ++ emptyEqs es) := by
  induction es with
  | nil => intro eqs; simp [setEmpty, emptyEqs]
  | cons e rest ih =>
      intro eqs
      cases e with
      | unitO c => simp [setEmpty, isUnitO, emptyEqs, ih]
      | strO s =>
          cases s with
          | nil => simp [setEmpty, isUnitO, isEmptyO, isStrLitO, emptyEqs, ih]
          | cons c cs =>
              simp [setEmpty, isUnitO, isEmptyO, isStrLitO, emptyEqs, ih]
      | empO => simp [setEmpty, isUnitO, isEmptyO, emptyEqs, ih]
      | svarO v =>
          simp [setEmpty, isUnitO, isEmptyO, isStrLitO, emptyEqs, ih,
            List.append_assoc]
      | itosO n =>
          simp [setEmpty, isUnitO, isEmptyO, isStrLitO, emptyEqs, ih,
            List.append_assoc]
      | catO x y =>
          simp [setEmpty, isUnitO, isEmptyO, isStrLitO, emptyEqs, ih,
            List.append_assoc]

theorem emptyEqs_nil_of_exact {es : List Op} (h : exactLen es = true) :
    emptyEqs es = [] := by
  induction es with
  | nil => rfl
  | cons e rest ih =>
      simp only [exactLen, Bool.and_eq_true] at h
      simp only [emptyEqs]
      rw [if_pos h.1, List.nil_append]
      exact ih h.2

theorem concatNonEmpty_eval_of_sat (σ : Assign) (es : List Op)
    (h : eqsSat σ (emptyEqs es)) :
    evalOps σ (concatNonEmpty es) = evalOps σ es := by
  induction es with
  | nil => rfl
  | cons e rest ih =>
      simp only [emptyEqs] at h
      rw [eqsSat_append] at h
      by_cases hk : (isUnitO e || isStrLitO e) = true
      · have hg : (isUnitO e || isEmptyO e || isStrLitO e) = true := by
          rcases Bool.or_eq_true_iff.mp hk with h1 | h1 <;> simp [h1]
        rw [if_pos hg] at h
        unfold concatNonEmpty at ih ⊢
        have hf : List.filter (fun x => isUnitO x || isStrLitO x) (e :: rest) =
            e :: List.filter (fun x => isUnitO x || isStrLitO x) rest := by
          simp [List.filter_cons, hk]
        rw [hf, evalOps_cons, evalOps_cons, ih h.2]
      · unfold concatNonEmpty at ih ⊢
        have hf : List.filter (fun x => isUnitO x || isStrLitO x) (e :: rest) =
            List.filter (fun x => isUnitO x || isStrLitO x) rest := by
          simp [List.filter_cons, hk]
        rw [hf, evalOps_cons, ih]
        · have hev : evalOp σ e = [] := by
            by_cases hg : (isUnitO e || isEmptyO e || isStrLitO e) = true
            · have hemp : isEmptyO e = true := by
                rcases Bool.or_eq_true_iff.mp hg with h1 | h1
                · rcases Bool.or_eq_true_iff.mp h1 with h2 | h2
                  · simp [h2] at hk
                  · exact h2
                · simp [h1] at hk
              exact evalOp_of_isEmptyO hemp σ
            · rw [if_neg hg] at h
              have h1 := eqsSat_single.mp h.1
              simp only [evalEqP] at h1
              rw [evalOps_single, evalOps_single] at h1
              exact h1.symm
          rw [hev, List.nil_append]
        · by_cases hg : (isUnitO e || isEmptyO e || isStrLitO e) = true
          · rw [if_pos hg] at h
            exact h.2
          · rw [if_neg hg] at h
            exact h.2

theorem emptyEqs_sat_of_len (σ : Assign) (es : List Op)
    (h : (evalOps σ es).length ≤ lenLB es) : eqsSat σ (emptyEqs es) := by
  induction es with
  | nil => exact eqsSat_nil σ
  | cons e rest ih =>
      rw [evalOps_cons, List.length_append] at h
      have h1 := lenC_le σ e
      have h2 := lenLB_le σ rest
      simp only [lenLB] at h
      simp only [emptyEqs]
      rw [eqsSat_append]
      refine ⟨?_, ih (by omega)⟩
      by_cases hg : (isUnitO e || isEmptyO e || isStrLitO e) = true
      · rw [if_pos hg]
        exact eqsSat_nil σ
      · rw [if_neg hg, eqsSat_single]
        simp only [evalEqP]
        rw [evalOps_single, evalOps_single]
        have hc0 : lenC e = 0 := by
          simp only [Bool.or_eq_true, not_or, Bool.not_eq_true] at hg
          simp only [lenC, hg.1.1, if_false, Bool.false_eq_true]
          cases e with
          | strO s =>
              cases s with
              | nil => simp [isEmptyO] at hg
              | cons c cs => simp [isStrLitO] at hg
          | _ => rfl
        have : (evalOp σ e).length = 0 := by omega
        have he := List.eq_nil_of_length_eq_zero this
        rw [he]
        rfl

/-- The length stage preserves satisfiability and refutes only
unsatisfiable states. -/
theorem reduceByLength_ok (ls rs : List Op) (eqs : List EqC) :
    StageOk ls rs eqs (reduceByLength ls rs eqs) := by
  unfold reduceByLength
  by_cases hemp : (ls.isEmpty && rs.isEmpty) = true
  · rw [if_pos hemp]
    exact stageOk_refl _ _ _
  · rw [if_neg hemp]
    simp only [minLength_eq]
    by_cases h1 : (exactLen ls && decide (lenLB ls < lenLB rs)) = true
    · rw [if_pos h1]
      simp only [Bool.and_eq_true, decide_eq_true_eq] at h1
      intro σ hc
      have ha := exactLen_len σ h1.1
      have hb := lenLB_le σ rs
      have hlen := congrArg List.length hc.1
      omega
    · rw [if_neg h1]
      by_cases h2 : (exactLen rs && decide (lenLB rs < lenLB ls)) = true
      · rw [if_pos h2]
        simp only [Bool.and_eq_true, decide_eq_true_eq] at h2
        intro σ hc
        have ha := exactLen_len σ h2.1
        have hb := lenLB_le σ ls
        have hlen := congrArg List.length hc.1
        omega
      · rw [if_neg h2]
        by_cases h3 : (exactLen ls && decide (lenLB ls = lenLB rs) &&
            decide (0 < lenLB ls)) = true
        · rw [if_pos h3]
          simp only [Bool.and_eq_true, decide_eq_true_eq] at h3
          rw [setEmpty_false_eq]
          intro σ
          constructor
          · rintro ⟨he, hsat⟩
            have hx1 := exactLen_len σ h3.1.1
            have hlen := congrArg List.length he
            have hx2 : (evalOps σ rs).length ≤ lenLB rs := by omega
            have hsat2 := emptyEqs_sat_of_len σ rs hx2
            have hcr := concatNonEmpty_eval_of_sat σ rs hsat2
            have hcl := concatNonEmpty_eval_of_sat σ ls
              (by rw [emptyEqs_nil_of_exact h3.1.1]; exact eqsSat_nil σ)
            refine ⟨rfl, ?_⟩
            rw [eqsSat_append, eqsSat_append, eqsSat_single]
            refine ⟨⟨hsat, hsat2⟩, ?_⟩
            simp only [evalEqP]
            rw [hcl, hcr]
            exact he
          · rintro ⟨-, hsat2⟩
            rw [eqsSat_append, eqsSat_append, eqsSat_single] at hsat2
            have hcr := concatNonEmpty_eval_of_sat σ rs hsat2.1.2
            have hcl := concatNonEmpty_eval_of_sat σ ls
              (by rw [emptyEqs_nil_of_exact h3.1.1]; exact eqsSat_nil σ)
            have he2 := hsat2.2
            simp only [evalEqP] at he2
            rw [hcl, hcr] at he2
            exact ⟨he2, hsat2.1.1⟩
        · rw [if_neg h3]
          by_cases h4 : (exactLen rs && decide (lenLB ls = lenLB rs) &&
              decide (0 < lenLB ls)) = true
          · rw [if_pos h4]
            simp only [Bool.and_eq_true, decide_eq_true_eq] at h4
            rw [setEmpty_false_eq]
            intro σ
            constructor
            · rintro ⟨he, hsat⟩
              have hx1 := exactLen_len σ h4.1.1
              have hlen := congrArg List.length he
              have hx2 : (evalOps σ ls).length ≤ lenLB ls := by omega
              have hsat2 := emptyEqs_sat_of_len σ ls hx2
              have hcl := concatNonEmpty_eval_of_sat σ ls hsat2
              have hcr := concatNonEmpty_eval_of_sat σ rs
                (by rw [emptyEqs_nil_of_exact h4.1.1]; exact eqsSat_nil σ)
              refine ⟨rfl, ?_⟩
              rw [eqsSat_append, eqsSat_append, eqsSat_single]
              refine ⟨⟨hsat, hsat2⟩, ?_⟩
              simp only [evalEqP]
              rw [hcl, hcr]
              exact he
            · rintro ⟨-, hsat2⟩
              rw [eqsSat_append, eqsSat_append, eqsSat_single] at hsat2
              have hcl := concatNonEmpty_eval_of_sat σ ls hsat2.1.2
              have hcr := concatNonEmpty_eval_of_sat σ rs
                (by rw [emptyEqs_nil_of_exact h4.1.1]; exact eqsSat_nil σ)
              have he2 := hsat2.2
              simp only [evalEqP] at he2
              rw [hcl, hcr] at he2
              exact ⟨he2, hsat2.1.1⟩
          · rw [if_neg h4]
            exact stageOk_refl _ _ _

/-- Length of the evaluation of the operand sitting at absolute position
`j` of the slice starting at absolute position `i`. -/
def posLen (σ : Assign) : List Op → Nat → Nat → Nat
  | [], _, _ => 0
  | y :: rest, i, j => if i = j then (evalOp σ y).length else posLen σ rest (i + 1) j

/-- Total evaluated length of the operands at matched positions. -/
def keptLen (σ : Assign) (rpos : List Nat) : List Op → Nat → Nat
  | [], _ => 0
  | y :: rest, i =>
      (if rpos.contains i then (evalOp σ y).length else 0) +
        keptLen σ rpos rest (i + 1)

theorem keptLen_nil_rpos (σ : Assign) : ∀ (rsT : List Op) (i : Nat),
    keptLen σ [] rsT i = 0 := by
  intro rsT
  induction rsT with
  | nil => intro i; rfl
  | cons y rest ih =>
      intro i
      simp only [keptLen, ih]
      rw [if_neg (by simp)]

theorem posLen_lt (σ : Assign) : ∀ (rsT : List Op) (i j : Nat), j < i →
    posLen σ rsT i j = 0 := by
  intro rsT
  induction rsT with
  | nil => intro i j h; rfl
  | cons y rest ih =>
      intro i j h
      simp only [posLen]
      rw [if_neg (by omega)]
      exact ih (i + 1) j (by omega)

theorem posLen_getD (σ : Assign) : ∀ (rsT : List Op) (i k : Nat),
    k < rsT.length →
    posLen σ rsT i (i + k) = (evalOp σ (rsT.getD k .empO)).length := by
  intro rsT
  induction rsT with
  | nil => intro i k h; simp at h
  | cons y rest ih =>
      intro i k h
      cases k with
      | zero =>
          simp only [posLen]
          rw [if_pos (by omega)]
          rfl
      | succ k2 =>
          simp only [posLen]
          rw [if_neg (by omega)]
          have h2 : i + (k2 + 1) = (i + 1) + k2 := by omega
          rw [h2, ih (i + 1) k2 (by simp at h; omega)]
          rfl

theorem keptLen_cons (σ : Assign) {j : Nat} {rest : List Nat}
    (hj : rest.contains j = false) : ∀ (rsT : List Op) (i : Nat),
    keptLen σ (j :: rest) rsT i = keptLen σ rest rsT i + posLen σ rsT i j := by
  intro rsT
  induction rsT with
  | nil => intro i; rfl
  | cons y rsT2 ih =>
      intro i
      simp only [keptLen, posLen]
      by_cases hij : i = j
      · have hA : ((j :: rest).contains i) = true := by
          rw [hij]
          simp
        have hB : ¬ rest.contains i = true := by
          rw [hij, hj]
          simp
        rw [if_pos hA, if_neg hB, if_pos hij, ih (i + 1)]
        rw [show posLen σ rsT2 (i + 1) j = 0 from
          posLen_lt σ rsT2 (i + 1) j (by omega)]
        omega
      · have hAB : ((j :: rest).contains i) = rest.contains i := by
          simp only [List.contains_cons]
          have hb : (i == j) = false := by simp [hij]
          rw [hb, Bool.false_or]
        rw [hAB, if_neg hij, ih (i + 1)]
        omega

theorem keptLen_le (σ : Assign) (rpos : List Nat) : ∀ (rsT : List Op) (i : Nat),
    keptLen σ rpos rsT i ≤ (evalOps σ rsT).length := by
  intro rsT
  induction rsT with
  | nil => intro i; simp [keptLen, evalOps_nil]
  | cons y rest ih =>
      intro i
      rw [evalOps_cons, List.length_append]
      simp only [keptLen]
      have := ih (i + 1)
      by_cases hc : rpos.contains i = true
      · rw [if_pos hc]; omega
      · rw [if_neg hc]; omega

theorem keptLen_eq_sum (σ : Assign) : ∀ (rpos : List Nat), rpos.Nodup →
    ∀ (rsT : List Op) (i : Nat),
    keptLen σ rpos rsT i = (rpos.map (posLen σ rsT i)).sum := by
  intro rpos
  induction rpos with
  | nil => intro h rsT i; simp [keptLen_nil_rpos]
  | cons j rest ih =>
      intro h rsT i
      have hj : rest.contains j = false := by
        have := (List.nodup_cons.mp h).1
        simpa using this
      rw [keptLen_cons σ hj rsT i, ih (List.nodup_cons.mp h).2 rsT i]
      simp only [List.map_cons, List.sum_cons]
      omega

theorem evalOp_length_of_unit {y : Op} (h : isUnitO y = true) (σ : Assign) :
    (evalOp σ y).length = 1 := by
  cases y <;> simp [isUnitO] at h ⊢ <;> simp [evalOp]

theorem findMatch_spec (x : Op) (rpos : List Nat) : ∀ (rsT : List Op) (j j0 : Nat),
    findMatch x rpos rsT j = some j0 →
    rpos.contains j0 = false ∧ ∃ k, k < rsT.length ∧ j0 = j + k ∧
      (∀ σ : Assign, (evalOp σ x).length = (evalOp σ (rsT.getD k .empO)).length) := by
  intro rsT
  induction rsT with
  | nil => intro j j0 h; simp [findMatch] at h
  | cons y rest ih =>
      intro j j0 h
      simp only [findMatch] at h
      by_cases hcond : ¬ rpos.contains j = true ∧
          (x = y ∨ (isUnitO x = true ∧ isUnitO y = true))
      · rw [if_pos hcond] at h
        have hj0 : j0 = j := (Option.some.inj h).symm
        subst hj0
        refine ⟨by simpa using hcond.1, 0, by simp, by omega, ?_⟩
        intro σ
        have hg : (y :: rest).getD 0 .empO = y := rfl
        rw [hg]
        rcases hcond.2 with hxy | hu
        · rw [hxy]
        · rw [evalOp_length_of_unit hu.1 σ, evalOp_length_of_unit hu.2 σ]
      · rw [if_neg hcond] at h
        obtain ⟨h1, k, hk, hjk, hlen⟩ := ih (j + 1) j0 h
        exact ⟨h1, k + 1, by simp; omega, by omega, hlen⟩

theorem greedyAll_spec (rs : List Op) : ∀ (l : List Op) (acc rpos : List Nat),
    greedyAll rs l acc = some rpos → acc.Nodup →
    rpos.Nodup ∧ ∀ σ : Assign,
      (rpos.map (posLen σ rs 0)).sum =
        (acc.map (posLen σ rs 0)).sum + (evalOps σ l).length := by
  intro l
  induction l with
  | nil =>
      intro acc rpos h hnd
      simp only [greedyAll, Option.some.injEq] at h
      subst h
      exact ⟨hnd, fun σ => by simp [evalOps_nil]⟩
  | cons x lrest ih =>
      intro acc rpos h hnd
      simp only [greedyAll] at h
      cases hfm : findMatch x acc rs 0 with
      | none => rw [hfm] at h; simp at h
      | some j =>
          rw [hfm] at h
          obtain ⟨hnc, k, hk, hjk, hlen⟩ := findMatch_spec x acc rs 0 j hfm
          have hnd2 : (j :: acc).Nodup := by
            rw [List.nodup_cons]
            exact ⟨by simpa using hnc, hnd⟩
          obtain ⟨hnd3, hsum⟩ := ih (j :: acc) rpos h hnd2
          refine ⟨hnd3, fun σ => ?_⟩
          have h1 := hsum σ
          simp only [List.map_cons, List.sum_cons] at h1
          have h2 : posLen σ rs 0 j = (evalOp σ x).length := by
            rw [hjk, posLen_getD σ rs 0 k hk]
            exact (hlen σ).symm
          rw [evalOps_cons, List.length_append]
          omega

theorem forceEmpty_keptLen (rpos : List Nat) : ∀ (rsT : List Op) (i : Nat)
    (eqs : List EqC) (rs2 : List Op) (eqs2 : List EqC),
    forceEmpty rpos rsT i eqs = some (rs2, eqs2) → ∀ σ : Assign,
    (evalOps σ rs2).length = keptLen σ rpos rsT i := by
  intro rsT
  induction rsT with
  | nil =>
      intro i eqs rs2 eqs2 h σ
      simp only [forceEmpty, Option.some.injEq, Prod.mk.injEq] at h
      rw [← h.1]
      simp [keptLen, evalOps_nil]
  | cons y rest ih =>
      intro i eqs rs2 eqs2 h σ
      by_cases hc : rpos.contains i = true
      · simp only [forceEmpty] at h
        rw [if_pos hc] at h
        cases hrec : forceEmpty rpos rest (i + 1) eqs with
        | none => rw [hrec] at h; simp at h
        | some p =>
            obtain ⟨p1, p2⟩ := p
            rw [hrec] at h
            simp at h
            obtain ⟨h1, h2⟩ := h
            subst h1
            simp only [keptLen]
            rw [if_pos hc, evalOps_cons, List.length_append]
            have hi := ih (i + 1) eqs p1 p2 hrec σ
            omega
      · simp only [forceEmpty] at h
        rw [if_neg hc] at h
        simp only [keptLen]
        rw [if_neg hc]
        cases y with
        | unitO c => simp [isUnitO] at h
        | strO s =>
            cases s with
            | nil =>
                simp only [isUnitO, isEmptyO] at h
                simp at h
                have hi := ih (i + 1) eqs rs2 eqs2 h σ
                omega
            | cons c cs =>
                simp [isUnitO, isEmptyO] at h
        | empO =>
            simp only [isUnitO, isEmptyO] at h
            simp at h
            have hi := ih (i + 1) eqs rs2 eqs2 h σ
            omega
        | svarO v =>
            simp only [isUnitO, isEmptyO] at h
            simp at h
            have hi := ih (i + 1) _ rs2 eqs2 h σ
            omega
        | itosO n =>
            simp only [isUnitO, isEmptyO] at h
            simp at h
            have hi := ih (i + 1) _ rs2 eqs2 h σ
            omega
        | catO a b =>
            simp only [isUnitO, isEmptyO] at h
            simp at h
            have hi := ih (i + 1) _ rs2 eqs2 h σ
            omega

theorem forceEmpty_none (rpos : List Nat) : ∀ (rsT : List Op) (i : Nat)
    (eqs : List EqC), forceEmpty rpos rsT i eqs = none → ∀ σ : Assign,
    keptLen σ rpos rsT i < (evalOps σ rsT).length := by
  intro rsT
  induction rsT with
  | nil => intro i eqs h; simp [forceEmpty] at h
  | cons y rest ih =>
      intro i eqs h σ
      simp only [keptLen]
      rw [evalOps_cons, List.length_append]
      by_cases hc : rpos.contains i = true
      · simp only [forceEmpty] at h
        rw [if_pos hc] at h
        rw [if_pos hc]
        cases hrec : forceEmpty rpos rest (i + 1) eqs with
        | none =>
            have hi := ih (i + 1) eqs hrec σ
            omega
        | some p => rw [hrec] at h; simp at h
      · simp only [forceEmpty] at h
        rw [if_neg hc] at h
        rw [if_neg hc]
        have hle := keptLen_le σ rpos rest (i + 1)
        cases y with
        | unitO c =>
            have h1 := evalOp_length_of_unit (y := .unitO c) rfl σ
            omega
        | strO s =>
            cases s with
            | nil =>
                simp only [isUnitO, isEmptyO] at h
                simp at h
                have hi := ih (i + 1) eqs h σ
                omega
            | cons c cs =>
                have h1 : (evalOp σ (Op.strO (c :: cs))).length = cs.length + 1 := by
                  simp [evalOp]
                omega
        | empO =>
            simp only [isUnitO, isEmptyO] at h
            simp at h
            have hi := ih (i + 1) eqs h σ
            omega
        | svarO v =>
            simp only [isUnitO, isEmptyO] at h
            simp at h
            have hi := ih (i + 1) _ h σ
            omega
        | itosO n =>
            simp only [isUnitO, isEmptyO] at h
            simp at h
            have hi := ih (i + 1) _ h σ
            omega
        | catO a b =>
            simp only [isUnitO, isEmptyO] at h
            simp at h
            have hi := ih (i + 1) _ h σ
            omega

theorem forceEmpty_ok (rpos : List Nat) : ∀ (rsT : List Op) (i : Nat)
    (eqs : List EqC) (rs2 : List Op) (eqs2 : List EqC),
    forceEmpty rpos rsT i eqs = some (rs2, eqs2) → ∀ σ : Assign,
    ((evalOps σ rsT).length ≤ (evalOps σ rs2).length →
      eqsSat σ eqs → eqsSat σ eqs2 ∧ evalOps σ rsT = evalOps σ rs2) ∧
    (eqsSat σ eqs2 → eqsSat σ eqs ∧ evalOps σ rsT = evalOps σ rs2) := by
  intro rsT
  induction rsT with
  | nil =>
      intro i eqs rs2 eqs2 h σ
      simp only [forceEmpty, Option.some.injEq, Prod.mk.injEq] at h
      obtain ⟨h1, h2⟩ := h
      subst h1
      subst h2
      exact ⟨fun _ hs => ⟨hs, rfl⟩, fun hs => ⟨hs, rfl⟩⟩
  | cons y rest ih =>
      intro i eqs rs2 eqs2 h σ
      by_cases hc : rpos.contains i = true
      · simp only [forceEmpty] at h
        rw [if_pos hc] at h
        cases hrec : forceEmpty rpos rest (i + 1) eqs with
        | none => rw [hrec] at h; simp at h
        | some p =>
            obtain ⟨p1, p2⟩ := p
            rw [hrec] at h
            simp at h
            obtain ⟨h1, h2⟩ := h
            subst h1
            subst h2
            have IH := ih (i + 1) eqs p1 p2 hrec σ
            constructor
            · intro hlen hs
              rw [evalOps_cons, evalOps_cons, List.length_append,
                List.length_append] at hlen
              have hf := IH.1 (by omega) hs
              rw [evalOps_cons, evalOps_cons, hf.2]
              exact ⟨hf.1, rfl⟩
            · intro hs2
              have hb := IH.2 hs2
              rw [evalOps_cons, evalOps_cons, hb.2]
              exact ⟨hb.1, rfl⟩
      · simp only [forceEmpty] at h
        rw [if_neg hc] at h
        cases y with
        | unitO c => simp [isUnitO] at h
        | strO s =>
            cases s with
            | nil =>
                simp only [isUnitO, isEmptyO] at h
                simp at h
                have IH := ih (i + 1) eqs rs2 eqs2 h σ
                have hnil : evalOps σ (Op.strO [] :: rest) = evalOps σ rest := by
                  rw [evalOps_cons]
                  rfl
                rw [hnil]
                exact IH
            | cons c cs => simp [isUnitO, isEmptyO] at h
        | empO =>
            simp only [isUnitO, isEmptyO] at h
            simp at h
            have IH := ih (i + 1) eqs rs2 eqs2 h σ
            have hnil : evalOps σ (Op.empO :: rest) = evalOps σ rest := by
              rw [evalOps_cons]
              rfl
            rw [hnil]
            exact IH
        | svarO v =>
            simp only [isUnitO, isEmptyO] at h
            simp at h
            have IH := ih (i + 1) _ rs2 eqs2 h σ
            have hKL := forceEmpty_keptLen rpos rest (i + 1) _ rs2 eqs2 h σ
            have hLE := keptLen_le σ rpos rest (i + 1)
            rw [evalOps_cons]
            constructor
            · intro hlen hs
              rw [List.length_append] at hlen
              have hy0 : (evalOp σ (Op.svarO v)).length = 0 := by omega
              have hy := List.eq_nil_of_length_eq_zero hy0
              have hsx : eqsSat σ (eqs ++ [EqC.seqeq [Op.empO] [Op.svarO v]]) := by
                rw [eqsSat_append, eqsSat_single]
                refine ⟨hs, ?_⟩
                simp only [evalEqP]
                rw [evalOps_single, evalOps_single, hy]
                rfl
              have hf := IH.1 (by omega) hsx
              rw [hy, List.nil_append]
              exact ⟨hf.1, hf.2⟩
            · intro hs2
              have hb := IH.2 hs2
              rw [eqsSat_append, eqsSat_single] at hb
              have hy : evalOp σ (Op.svarO v) = [] := by
                have h1 := hb.1.2
                simp only [evalEqP] at h1
                rw [evalOps_single, evalOps_single] at h1
                exact h1.symm
              rw [hy, List.nil_append]
              exact ⟨hb.1.1, hb.2⟩
        | itosO n =>
            simp only [isUnitO, isEmptyO] at h
            simp at h
            have IH := ih (i + 1) _ rs2 eqs2 h σ
            have hKL := forceEmpty_keptLen rpos rest (i + 1) _ rs2 eqs2 h σ
            have hLE := keptLen_le σ rpos rest (i + 1)
            rw [evalOps_cons]
            constructor
            · intro hlen hs
              rw [List.length_append] at hlen
              have hy0 : (evalOp σ (Op.itosO n)).length = 0 := by omega
              have hy := List.eq_nil_of_length_eq_zero hy0
              have hsx : eqsSat σ (eqs ++ [EqC.seqeq [Op.empO] [Op.itosO n]]) := by
                rw [eqsSat_append, eqsSat_single]
                refine ⟨hs, ?_⟩
                simp only [evalEqP]
                rw [evalOps_single, evalOps_single, hy]
                rfl
              have hf := IH.1 (by omega) hsx
              rw [hy, List.nil_append]
              exact ⟨hf.1, hf.2⟩
            · intro hs2
              have hb := IH.2 hs2
              rw [eqsSat_append, eqsSat_single] at hb
              have hy : evalOp σ (Op.itosO n) = [] := by
                have h1 := hb.1.2
                simp only [evalEqP] at h1
                rw [evalOps_single, evalOps_single] at h1
                exact h1.symm
              rw [hy, List.nil_append]
              exact ⟨hb.1.1, hb.2⟩
        | catO a b =>
            simp only [isUnitO, isEmptyO] at h
            simp at h
            have IH := ih (i + 1) _ rs2 eqs2 h σ
            have hKL := forceEmpty_keptLen rpos rest (i + 1) _ rs2 eqs2 h σ
            have hLE := keptLen_le σ rpos rest (i + 1)
            rw [evalOps_cons]
            constructor
            · intro hlen hs
              rw [List.length_append] at hlen
              have hy0 : (evalOp σ (Op.catO a b)).length = 0 := by omega
              have hy := List.eq_nil_of_length_eq_zero hy0
              have hsx : eqsSat σ (eqs ++ [EqC.seqeq [Op.empO] [Op.catO a b]]) := by
                rw [eqsSat_append, eqsSat_single]
                refine ⟨hs, ?_⟩
                simp only [evalEqP]
                rw [evalOps_single, evalOps_single, hy]
                rfl
              have hf := IH.1 (by omega) hsx
              rw [hy, List.nil_append]
              exact ⟨hf.1, hf.2⟩
            · intro hs2
              have hb := IH.2 hs2
              rw [eqsSat_append, eqsSat_single] at hb
              have hy : evalOp σ (Op.catO a b) = [] := by
                have h1 := hb.1.2
                simp only [evalEqP] at h1
                rw [evalOps_single, evalOps_single] at h1
                exact h1.symm
              rw [hy, List.nil_append]
              exact ⟨hb.1.1, hb.2⟩

/-- The subsequence stage (after the swap) preserves satisfiability and
refutes only unsatisfiable states. -/
theorem reduceSubseqCore_ok (ls rs : List Op) (eqs : List EqC) :
    StageOk ls rs eqs (reduceSubseqCore ls rs eqs) := by
  unfold reduceSubseqCore
  by_cases h1 : ls.length = rs.length
  · rw [if_pos h1]
    exact stageOk_refl _ _ _
  · rw [if_neg h1]
    by_cases h2 : (ls.isEmpty && decide (rs.length = 1)) = true
    · rw [if_pos h2]
      exact stageOk_refl _ _ _
    · rw [if_neg h2]
      cases hga : greedyAll rs ls [] with
      | none => exact stageOk_refl _ _ _
      | some rpos =>
          obtain ⟨hnd, hsum⟩ := greedyAll_spec rs ls [] rpos hga List.nodup_nil
          have hbr : ∀ σ : Assign, keptLen σ rpos rs 0 = (evalOps σ ls).length := by
            intro σ
            rw [keptLen_eq_sum σ rpos hnd rs 0, hsum σ]
            simp
          show StageOk ls rs eqs
            (match forceEmpty rpos rs 0 eqs with
              | none => none
              | some (rs2, eqs2) =>
                if rs2.length = rs.length then some (ls, rs2, eqs2)
                else if ls.isEmpty = true then some (ls, rs2, eqs2)
                else some ([], [], eqs2 ++ [EqC.seqeq ls rs2]))
          cases hfe : forceEmpty rpos rs 0 eqs with
          | none =>
              intro σ hc
              have ha := forceEmpty_none rpos rs 0 eqs hfe σ
              have hb := hbr σ
              have hlen := congrArg List.length hc.1
              omega
          | some p =>
              obtain ⟨rs2, eqs2⟩ := p
              show StageOk ls rs eqs
                (if rs2.length = rs.length then some (ls, rs2, eqs2)
                  else if ls.isEmpty = true then some (ls, rs2, eqs2)
                  else some ([], [], eqs2 ++ [EqC.seqeq ls rs2]))
              have hKL := fun σ => forceEmpty_keptLen rpos rs 0 eqs rs2 eqs2 hfe σ
              have hok := fun σ => forceEmpty_ok rpos rs 0 eqs rs2 eqs2 hfe σ
              have hmain : StageOk ls rs eqs (some (ls, rs2, eqs2)) := by
                intro σ
                constructor
                · rintro ⟨he, hs⟩
                  have hlen := congrArg List.length he
                  have hf := (hok σ).1 (by rw [hKL σ, hbr σ]; omega) hs
                  exact ⟨he.trans hf.2, hf.1⟩
                · rintro ⟨he2, hs2⟩
                  have hb := (hok σ).2 hs2
                  exact ⟨he2.trans hb.2.symm, hb.1⟩
              by_cases h3 : rs2.length = rs.length
              · rw [if_pos h3]
                exact hmain
              · rw [if_neg h3]
                by_cases h4 : ls.isEmpty = true
                · rw [if_pos h4]
                  exact hmain
                · rw [if_neg h4]
                  intro σ
                  constructor
                  · rintro ⟨he, hs⟩
                    have hlen := congrArg List.length he
                    have hf := (hok σ).1 (by rw [hKL σ, hbr σ]; omega) hs
                    refine ⟨rfl, ?_⟩
                    rw [eqsSat_append, eqsSat_single]
                    refine ⟨hf.1, ?_⟩
                    simp only [evalEqP]
                    exact he.trans hf.2
                  · rintro ⟨-, hs2⟩
                    rw [eqsSat_append, eqsSat_single] at hs2
                    have hb := (hok σ).2 hs2.1
                    have he2 := hs2.2
                    simp only [evalEqP] at he2
                    exact ⟨he2.trans hb.2.symm, hb.1⟩

/-- The subsequence stage preserves satisfiability and refutes only
unsatisfiable states. -/
theorem reduceSubseq_ok (ls rs : List Op) (eqs : List EqC) :
    StageOk ls rs eqs (reduceSubseq ls rs eqs) := by
  unfold reduceSubseq
  split
  · exact stageOk_of_swap (reduceSubseqCore_ok rs ls eqs)
  · exact reduceSubseqCore_ok ls rs eqs

theorem getD_append_left {α : Type} (l l2 : List α) (n : Nat) (d : α)
    (h : n < l.length) : (l ++ l2).getD n d = l.getD n d := by
  unfold List.getD
  rw [List.get?_append h]

theorem getD_append_righty {α : Type} (l l2 : List α) (n : Nat) (d : α)
    (h : l.length ≤ n) : (l ++ l2).getD n d = l2.getD (n - l.length) d := by
  unfold List.getD
  rw [List.get?_append_right h]

theorem drop_range_eq (n m : Nat) :
    (List.range n).drop m = List.range' m (n - m) := by
  rw [List.range_eq_range']
  by_cases h : m ≤ n
  · have h2 := List.range'_append 0 m (n - m) 1
    simp only [Nat.one_mul, Nat.zero_add] at h2
    rw [show n - m + m = n from by omega] at h2
    rw [← h2]
    have h4 := List.drop_left (List.range' 0 m) (List.range' m (n - m))
    simpa using h4
  · rw [show n - m = 0 from by omega]
    simp only [List.range'_zero]
    apply List.drop_eq_nil_of_le
    simp
    omega

theorem mem_range'_iff (j s n : Nat) :
    j ∈ List.range' s n ↔ s ≤ j ∧ j < s + n := by
  rw [List.mem_range']
  constructor
  · rintro ⟨i, hi, rfl⟩
    omega
  · intro h
    exact ⟨j - s, by omega, by omega⟩

theorem areDistinctO_sound {a b : Op} (h : areDistinctO a b = true)
    (σ : Assign) : evalOp σ a ≠ evalOp σ b := by
  cases a with
  | unitO c =>
      cases b with
      | unitO d =>
          cases c with
          | cc c1 =>
              cases d with
              | cc d1 =>
                  simp only [areDistinctO, decide_eq_true_eq] at h
                  simp only [evalOp, evalCharE, ne_eq, List.cons.injEq,
                    and_true]
                  exact h
              | cv v => simp [areDistinctO] at h
          | cv v => cases d <;> simp [areDistinctO] at h
      | _ => simp [areDistinctO] at h
  | _ => simp [areDistinctO] at h

theorem evalOps_length_of_allUnit {p : List Op} (h : p.all isUnitO = true)
    (σ : Assign) : (evalOps σ p).length = p.length := by
  induction p with
  | nil => rfl
  | cons y rest ih =>
      simp only [List.all_cons, Bool.and_eq_true] at h
      rw [evalOps_cons, List.length_append, ih h.2, List.length_cons,
        evalOp_length_of_unit h.1 σ]
      omega

theorem evalOps_getD_allUnit (σ : Assign) : ∀ (p : List Op),
    p.all isUnitO = true → ∀ k, k < p.length →
    evalOp σ (p.getD k .empO) = [(evalOps σ p).getD k ' '] := by
  intro p
  induction p with
  | nil => intro h k hk; simp at hk
  | cons y rest ih =>
      intro h k hk
      simp only [List.all_cons, Bool.and_eq_true] at h
      cases k with
      | zero =>
          have h1 := evalOp_length_of_unit h.1 σ
          rw [evalOps_cons]
          rw [getD_append_left _ _ _ _ (by omega)]
          cases y with
          | unitO c => rfl
          | _ => simp [isUnitO] at h
      | succ k2 =>
          rw [evalOps_cons]
          have h1 := evalOp_length_of_unit h.1 σ
          rw [getD_append_righty _ _ _ _ (by omega)]
          rw [show k2 + 1 - (evalOp σ y).length = k2 from by omega]
          have hg : (y :: rest).getD (k2 + 1) Op.empO = rest.getD k2 Op.empO := rfl
          rw [hg]
          simp only [List.length_cons] at hk
          exact ih h.2 k2 (by omega)

/-- A refuted alignment scan yields a provably-distinct position pair. -/
theorem canOverlapE_false (p1 p2 : List Op) (start2 end1 i : Nat)
    (h : canOverlapE p1 p2 start2 end1 i = false) :
    ∃ k, i ≤ k ∧ k < end1 ∧
      areDistinctO (p1.getD k .empO) (p2.getD (start2 + k) .empO) = true := by
  rw [canOverlapE.eq_def] at h
  by_cases hi : i < end1
  · rw [if_pos hi] at h
    by_cases hd : areDistinctO (p1.getD i .empO) (p2.getD (start2 + i) .empO)
        = true
    · exact ⟨i, le_refl i, hi, hd⟩
    · rw [if_neg hd] at h
      by_cases he : (!areEqualO (p1.getD i .empO) (p2.getD (start2 + i) .empO))
          = true
      · rw [if_pos he] at h
        exact absurd h (by simp)
      · rw [if_neg he] at h
        obtain ⟨k, hk1, hk2, hk3⟩ :=
          canOverlapE_false p1 p2 start2 end1 (i + 1) h
        exact ⟨k, by omega, hk2, hk3⟩
  · rw [if_neg hi] at h
    exact absurd h (by simp)
termination_by end1 - i
decreasing_by
  all_goals simp_wf
  all_goals omega

/-- A positive `non_overlap` verdict on two all-unit runs excludes every
containment of the first run in the second, under every assignment. -/
theorem nonOverlapE_not_contain (p1 p2 : List Op) (h1 : p1.all isUnitO = true)
    (h2 : p2.all isUnitO = true) (hno : nonOverlapE p1 p2 = true)
    (σ : Assign) : ¬ ∃ s t, evalOps σ p2 = s ++ evalOps σ p1 ++ t := by
  have e1 := evalOps_length_of_allUnit h1 σ
  have e2 := evalOps_length_of_allUnit h2 σ
  by_cases hlen : p2.length < p1.length
  · rintro ⟨s, t, hst⟩
    have h3 := congrArg List.length hst
    simp only [List.length_append] at h3
    omega
  · rw [nonOverlapE.eq_def] at hno
    rw [if_neg hlen] at hno
    by_cases hz : (decide (p1.length = 0) || decide (p2.length = 0)) = true
    · rw [if_pos hz] at hno
      exact absurd hno (by simp)
    · rw [if_neg hz] at hno
      simp only [Bool.or_eq_true, decide_eq_true_eq] at hz
      split at hno
      · rename_i s1 s2
        simp [isUnitO] at h1
      · rw [if_neg (by simp [h1]), if_neg (by simp [h2])] at hno
        simp only [Bool.and_eq_true, Bool.not_eq_true'] at hno
        rintro ⟨s, t, hst⟩
        have h3 := congrArg List.length hst
        simp only [List.length_append] at h3
        have hco : canOverlapE p1 p2 s.length p1.length 0 = false := by
          by_cases hj2 : s.length < p2.length - p1.length
          · have ha := hno.1.2
            rw [List.any_eq_false] at ha
            have hb := ha s.length (by rw [List.mem_range]; omega)
            simpa using hb
          · have ha := hno.2
            rw [List.any_eq_false] at ha
            have hmem : s.length ∈
                (List.range p2.length).drop (p2.length - p1.length) := by
              rw [drop_range_eq, mem_range'_iff]
              omega
            have hb := ha s.length hmem
            have hrw : p2.length - s.length = p1.length := by omega
            rw [hrw] at hb
            simpa using hb
        obtain ⟨k, hk0, hk1, hkd⟩ :=
          canOverlapE_false p1 p2 s.length p1.length 0 hco
        have hd := areDistinctO_sound hkd σ
        apply hd
        have q1 := evalOps_getD_allUnit σ p1 h1 k (by omega)
        have q2 := evalOps_getD_allUnit σ p2 h2 (s.length + k) (by omega)
        rw [q1, q2]
        congr 1
        rw [hst]
        rw [getD_append_left _ _ _ _ (by rw [List.length_append]; omega)]
        rw [getD_append_righty _ _ _ _ (by omega)]
        rw [show s.length + k - s.length = k from by omega]

/-- A positive maximal-unit-run scan excludes, under every assignment, the
containment of the remaining operands in the all-unit right side. -/
theorem rnoFails_sound (rs : List Op) (h2 : rs.all isUnitO = true) :
    ∀ (rest pattern : List Op), pattern.all isUnitO = true →
    rnoFails rs pattern rest = true → ∀ σ : Assign,
    ¬ ∃ s t, evalOps σ rs = s ++ evalOps σ (pattern ++ rest) ++ t := by
  intro rest
  induction rest with
  | nil =>
      intro pattern hp h σ
      simp only [rnoFails, Bool.and_eq_true] at h
      have hmain := nonOverlapE_not_contain pattern rs hp h2 h.2 σ
      rintro ⟨s, t, hst⟩
      rw [List.append_nil] at hst
      exact hmain ⟨s, t, hst⟩
  | cons x rest2 ih =>
      intro pattern hp h σ
      simp only [rnoFails] at h
      by_cases hu : isUnitO x = true
      · rw [if_pos hu] at h
        have hthis := ih (pattern ++ [x])
          (by simp only [List.all_append, hp, Bool.true_and]; simp [hu]) h σ
        have hl : (pattern ++ [x]) ++ rest2 = pattern ++ x :: rest2 := by
          rw [List.append_assoc]
          rfl
        rw [hl] at hthis
        exact hthis
      · rw [if_neg hu] at h
        by_cases hpe : (!pattern.isEmpty) = true
        · rw [if_pos hpe] at h
          by_cases hno : nonOverlapE pattern rs = true
          · have hmain := nonOverlapE_not_contain pattern rs hp h2 hno σ
            rintro ⟨s, t, hst⟩
            apply hmain
            refine ⟨s, evalOps σ (x :: rest2) ++ t, ?_⟩
            rw [hst, evalOps_append]
            simp only [List.append_assoc]
          · rw [if_neg hno] at h
            have hthis := ih [] (by simp) h σ
            rintro ⟨s, t, hst⟩
            apply hthis
            refine ⟨s ++ evalOps σ pattern ++ evalOp σ x, t, ?_⟩
            rw [hst]
            simp only [evalOps_append, evalOps_cons, evalOps_nil,
              List.nil_append, List.append_assoc]
        · rw [if_neg hpe] at h
          have hthis := ih [] (by simp) h σ
          rintro ⟨s, t, hst⟩
          apply hthis
          refine ⟨s ++ evalOps σ pattern ++ evalOp σ x, t, ?_⟩
          rw [hst]
          simp only [evalOps_append, evalOps_cons, evalOps_nil,
            List.nil_append, List.append_assoc]

/-- The overlap stage preserves satisfiability and refutes only
unsatisfiable states. -/
theorem reduceNonOverlap_ok (ls rs : List Op) (eqs : List EqC) :
    StageOk ls rs eqs (reduceNonOverlap ls rs eqs) := by
  unfold reduceNonOverlap
  by_cases hall : rs.all isUnitO = true
  · rw [if_pos hall]
    by_cases hf : rnoFails rs [] ls = true
    · rw [if_pos hf]
      intro σ hc
      have hmain := rnoFails_sound rs hall ls [] (by simp) hf σ
      apply hmain
      refine ⟨[], [], ?_⟩
      simp only [List.nil_append, List.append_nil]
      exact hc.1.symm
    · rw [if_neg hf]
      exact stageOk_refl _ _ _
  · rw [if_neg hall]
    exact stageOk_refl _ _ _

theorem stageOk_bindP {ls rs : List Op} {eqs : List EqC}
    {o1 : Option (List Op × List Op × List EqC)}
    {f : List Op × List Op × List EqC → Option (List Op × List Op × List EqC)}
    (h1 : StageOk ls rs eqs o1)
    (h2 : ∀ a b c, o1 = some (a, b, c) → StageOk a b c (f (a, b, c))) :
    StageOk ls rs eqs (o1 >>= f) := by
  cases o1 with
  | none => exact h1
  | some p =>
      obtain ⟨a, b, c⟩ := p
      exact stageOk_trans h1 (h2 a b c rfl)

theorem stageOk_bindP_swap {ls rs : List Op} {eqs : List EqC}
    {o1 : Option (List Op × List Op × List EqC)}
    {f : List Op × List Op × List EqC → Option (List Op × List Op × List EqC)}
    (h1 : StageOk rs ls eqs o1)
    (h2 : ∀ a b c, o1 = some (a, b, c) → StageOk b a c (f (a, b, c))) :
    StageOk ls rs eqs (o1 >>= f) := by
  cases o1 with
  | none => exact stageOk_of_swap h1
  | some p =>
      obtain ⟨a, b, c⟩ := p
      exact stageOk_trans (stageOk_swap_some h1) (h2 a b c rfl)

/-- The whole word-equation reducer preserves satisfiability and refutes
only unsatisfiable equations. -/
theorem reduceEqL_ok (ls0 rs0 : List Op) (eqs0 : List EqC) :
    StageOk ls0 rs0 eqs0 (reduceEqL ls0 rs0 eqs0) := by
  have h0 : StageOk ls0 rs0 eqs0
      (some (removeEmptyAndConcats ls0, removeEmptyAndConcats rs0, eqs0)) := by
    intro σ
    rw [evalOps_removeEmptyAndConcats, evalOps_removeEmptyAndConcats]
  refine stageOk_trans h0 ?_
  unfold reduceEqL
  apply stageOk_bindP (reduceBack_ok _ _ _)
  intro a2 b2 c2 _
  apply stageOk_bindP (reduceFront_ok _ _ _)
  intro a3 b3 c3 _
  apply stageOk_bindP (reduceItos_ok _ _ _)
  intro a4 b4 c4 _
  apply stageOk_bindP_swap (reduceItos_ok b4 a4 c4)
  intro a5 b5 c5 _
  apply stageOk_bindP (reduceByLength_ok _ _ _)
  intro a6 b6 c6 _
  apply stageOk_bindP (reduceSubseq_ok _ _ _)
  intro a7 b7 c7 _
  apply stageOk_bindP (reduceNonOverlap_ok _ _ _)
  intro a8 b8 c8 _
  apply stageOk_bindP_swap (reduceNonOverlap_ok b8 a8 c8)
  intro a9 b9 c9 _
  exact stageOk_refl _ _ _

/-- C1: if the word-equation reducer `reduce_eq` refutes the equation
(returns `false`, modelled as `none`), the original equation `ls = rs` has
no satisfying assignment; and whenever it returns a reduced state, the
conjunction of the accumulated equalities with the residual equation is
logically equivalent to the original equation, assignment by
assignment. -/
theorem reduce_eq_sound_and_equivalent (ls0 rs0 : List Op) :
    (reduceEqL ls0 rs0 [] = none →
      ∀ σ : Assign, evalOps σ ls0 ≠ evalOps σ rs0) ∧
    (∀ ls1 rs1 eqs1, reduceEqL ls0 rs0 [] = some (ls1, rs1, eqs1) →
      ∀ σ : Assign, (evalOps σ ls0 = evalOps σ rs0 ↔
        (evalOps σ ls1 = evalOps σ rs1 ∧ eqsSat σ eqs1))) := by
  have h := reduceEqL_ok ls0 rs0 []
  constructor
  · intro hn σ he
    rw [hn] at h
    exact h σ ⟨he, eqsSat_nil σ⟩
  · intro ls1 rs1 eqs1 hs σ
    rw [hs] at h
    have h2 := h σ
    constructor
    · intro he
      exact h2.mp ⟨he, eqsSat_nil σ⟩
    · intro hr
      exact (h2.mpr hr).1

/-- Witness for C1 at the refuted equation `unit a = unit b`. -/
theorem reduce_eq_sound_and_equivalent_witness :
    reduceEqL [Op.unitO (.cc 'a')] [Op.unitO (.cc 'b')] [] = none ∧
    ∀ σ : Assign,
      evalOps σ [Op.unitO (.cc 'a')] ≠ evalOps σ [Op.unitO (.cc 'b')] := by
  have hn : reduceEqL [Op.unitO (.cc 'a')] [Op.unitO (.cc 'b')] [] = none := by
    have h3 : reduceBack [Op.unitO (.cc 'a')] [Op.unitO (.cc 'b')] [] =
        none := by
      rw [reduceBack.eq_def]
      decide
    simp [reduceEqL, removeEmptyAndConcats, isConcatO, isEmptyO, h3]
  exact ⟨hn, (reduce_eq_sound_and_equivalent [Op.unitO (.cc 'a')]
    [Op.unitO (.cc 'b')]).1 hn⟩

/-- C5 (amended): when the left side is the single term `itos(n)` and the
right side aggregates to the concrete string `s`, the reduction replaces
the equation by the numeral equation `n = decimal(s)` exactly when `s` is
the canonical decimal encoding of a nonnegative value (and the numeral
equation is then equivalent to the original equation); an invalid literal
leaves the equation unchanged — the stage never reports the equation
unsatisfiable. -/
theorem reduce_itos_decimal_cases (n : Nat) (rs : List Op) (eqs : List EqC)
    (s : List Char) (hagg : isStringAgg rs = some s) :
    (validDecGuard s = true →
      reduceItos [.itosO n] rs eqs =
        some ([], [], eqs ++ [.inteq n ((decAccum s : Nat) : Int)]) ∧
      ∀ σ : Assign, (evalOps σ [.itosO n] = evalOps σ rs ↔
        σ.inv n = ((decAccum s : Nat) : Int))) ∧
    (validDecGuard s = false →
      reduceItos [.itosO n] rs eqs = some ([.itosO n], rs, eqs)) := by
  constructor
  · intro hv
    constructor
    · simp [reduceItos, hagg, hv]
    · intro σ
      have hr := evalOps_isStringAgg σ rs s hagg
      rw [evalOps_single]
      simp only [evalOp]
      rw [hr]
      exact itosVal_eq_iff hv
  · intro hv
    simp [reduceItos, hagg, hv]

/-- Witness for C5 at `itos(0) = "0"` (a valid canonical literal). -/
theorem reduce_itos_decimal_cases_witness :
    isStringAgg [Op.strO ['0']] = some ['0'] ∧
    ((validDecGuard ['0'] = true →
      reduceItos [.itosO 0] [Op.strO ['0']] [] =
        some ([], [], [] ++ [.inteq 0 ((decAccum ['0'] : Nat) : Int)]) ∧
      ∀ σ : Assign, (evalOps σ [.itosO 0] = evalOps σ [Op.strO ['0']] ↔
        σ.inv 0 = ((decAccum ['0'] : Nat) : Int))) ∧
    (validDecGuard ['0'] = false →
      reduceItos [.itosO 0] [Op.strO ['0']] [] =
        some ([.itosO 0], [Op.strO ['0']], []))) :=
  ⟨by decide,
    reduce_itos_decimal_cases 0 [Op.strO ['0']] [] ['0'] (by decide)⟩

/-- C5 (counterexample): at `itos(0) = "00"` — right side a fully concrete
sequence that is not a valid nonnegative decimal encoding — `reduce_eq`
returns the equation unchanged instead of reporting it unsatisfiable. -/
theorem reduce_eq_itos_invalid_unchanged :
    reduceEqL [Op.itosO 0] [Op.strO ['0', '0']] [] =
      some ([Op.itosO 0], [Op.strO ['0', '0']], []) := by
  have h3 : reduceBack [Op.itosO 0] [Op.strO ['0', '0']] [] =
      some ([Op.itosO 0], [Op.strO ['0', '0']], []) := by
    rw [reduceBack.eq_def]
    decide
  have h4 : reduceFront [Op.itosO 0] [Op.strO ['0', '0']] [] =
      some ([Op.itosO 0], [Op.strO ['0', '0']], []) := by
    rw [reduceFront.eq_def]
    decide
  have h5 : reduceItos [Op.itosO 0] [Op.strO ['0', '0']] [] =
      some ([Op.itosO 0], [Op.strO ['0', '0']], []) := by decide
  have h6 : reduceItos [Op.strO ['0', '0']] [Op.itosO 0] [] =
      some ([Op.strO ['0', '0']], [Op.itosO 0], []) := by decide
  have h7 : reduceByLength [Op.itosO 0] [Op.strO ['0', '0']] [] =
      some ([Op.itosO 0], [Op.strO ['0', '0']], []) := by decide
  have h8 : reduceSubseq [Op.itosO 0] [Op.strO ['0', '0']] [] =
      some ([Op.itosO 0], [Op.strO ['0', '0']], []) := by decide
  have h9 : reduceNonOverlap [Op.itosO 0] [Op.strO ['0', '0']] [] =
      some ([Op.itosO 0], [Op.strO ['0', '0']], []) := by decide
  have h10 : reduceNonOverlap [Op.strO ['0', '0']] [Op.itosO 0] [] =
      some ([Op.strO ['0', '0']], [Op.itosO 0], []) := by decide
  simp [reduceEqL, removeEmptyAndConcats, isConcatO, isEmptyO,
    h3, h4, h5, h6, h7, h8, h9, h10]

end Z3Seq
